import Mathlib

/-!
# goat-viewer: natural filename order and the archive page index

A shallow embedding of `app.go` (the Wails backend: `naturalLess`, `isImage`,
`mimeFromName`, `App.OpenArchive`, `App.ListPages`, `App.GetPageDataURL`) and of
`src/cmd/main.go` (`ComicViewer.loadImageList`), followed by the properties
proved about them.

Modelling conventions.

* A Go `string` holding valid UTF-8 is a `List Char`; Go compares strings byte
  by byte, which on valid UTF-8 is the comparison of the code points, so `<` on
  strings is `strLess` below.
* Functions of the Go standard library that the program calls but that are not
  part of the repository are parameters of the definitions that use them:
  `lower` is `unicode.ToLower` (the rune map behind `strings.ToLower`),
  `srt` is `sort.Slice`, `rd` is `zip.OpenReader`, `enc` is
  `base64.StdEncoding.EncodeToString`. Where only the documented guarantee of
  `sort.Slice` matters it enters as `SortSliceSpec`; where the order of tied
  entries is at stake the routine itself is transcribed (`sortSlice`).
* `filepath.Base` and `filepath.Ext` are transcribed for a Unix target, where the
  only path separator is the slash and there is no volume name.
-/

namespace GoatViewer

/-- A Go string (valid UTF-8), as the list of its runes. -/
abbrev Str := List Char

/-! ## Strings and paths -/

/-- The function `isDigit` of `app.go`: the byte lies between the digits zero and
nine. -/
def isDigit (c : Char) : Bool := decide (48 ≤ c.toNat) && decide (c.toNat ≤ 57)

/-- The Go `<` on strings: lexicographic on the code units. -/
def strLess : Str → Str → Bool
  | [], [] => false
  | [], _ :: _ => true
  | _ :: _, [] => false
  | a :: as, b :: bs =>
    if a.toNat < b.toNat then true
    else if b.toNat < a.toNat then false
    else strLess as bs

/-- The function `strings.ToLower`: every rune is mapped through `unicode.ToLower`. -/
def ToLower (lower : Char → Char) (s : Str) : Str := s.map lower

/-- The restriction of `unicode.ToLower` to ASCII: `A`..`Z` go to `a`..`z`, every
other rune is left alone. -/
def asciiLower (c : Char) : Char :=
  if 65 ≤ c.toNat ∧ c.toNat ≤ 90 then Char.ofNat (c.toNat + 32) else c

/-- The call `strings.TrimLeft(s, "0")`: drop the leading zeros. -/
def TrimLeft0 (s : Str) : Str := s.dropWhile (fun c => c == '0')

/-- The function `filepath.Base`: the empty path is `.`; trailing slashes are stripped; the
part after the last remaining slash is kept; a path of slashes only is `/`. -/
def Base (path : Str) : Str :=
  if path = [] then ['.']
  else
    let stripped := path.reverse.dropWhile (fun c => c == '/')
    let last := (stripped.takeWhile (fun c => c != '/')).reverse
    if last = [] then ['/'] else last

/-- The loop of `filepath.Ext`, walking from the last rune towards the first:
`rev` is the part not yet visited (reversed), `acc` the suffix already visited. -/
def extLoop : Str → Str → Str
  | [], _ => []
  | c :: rev, acc =>
    if c = '/' then []
    else if c = '.' then c :: acc
    else extLoop rev (c :: acc)

/-- The function `filepath.Ext`: the suffix starting at the last dot of the last path element,
empty when that element has no dot. -/
def Ext (path : Str) : Str := extLoop path.reverse []

/-! ## Helpers of app.go -/

/-- The function `isImage` of `app.go`. -/
def isImage (lower : Char → Char) (name : Str) : Bool :=
  let ext := ToLower lower (Ext name)
  if ext = ['.', 'j', 'p', 'g'] ∨ ext = ['.', 'j', 'p', 'e', 'g'] ∨ ext = ['.', 'p', 'n', 'g']
      ∨ ext = ['.', 'g', 'i', 'f'] ∨ ext = ['.', 'w', 'e', 'b', 'p'] ∨ ext = ['.', 'b', 'm', 'p']
  then true
  else false

/-- The function `mimeFromName` of `app.go`. -/
def mimeFromName (lower : Char → Char) (name : Str) : String :=
  let ext := ToLower lower (Ext name)
  if ext = ['.', 'j', 'p', 'g'] ∨ ext = ['.', 'j', 'p', 'e', 'g'] then "image/jpeg"
  else if ext = ['.', 'p', 'n', 'g'] then "image/png"
  else if ext = ['.', 'g', 'i', 'f'] then "image/gif"
  else if ext = ['.', 'w', 'e', 'b', 'p'] then "image/webp"
  else if ext = ['.', 'b', 'm', 'p'] then "image/bmp"
  else "application/octet-stream"

/-- Put one more rune in front of the runs of the text that follows it: it joins
the first run exactly when both are digits or both are not, and starts a run of
its own otherwise. -/
def pushRune (c : Char) : List Str → List Str
  | (d :: ds) :: rest =>
    if isDigit c = isDigit d then (c :: d :: ds) :: rest else [c] :: (d :: ds) :: rest
  | rest => [c] :: rest

/-- The call `numChunk.FindAllString(s, -1)` for the pattern `\d+|\D+`: the successive
maximal runs of digits and of non-digits of `s`. -/
def numChunk : Str → List Str
  | [] => []
  | c :: cs => pushRune c (numChunk cs)

/-- The test `isDigit(s[0])` on a chunk `s`. -/
def startsWithDigit : Str → Bool
  | [] => false
  | c :: _ => isDigit c

/-- The loop of `naturalLess` over the two chunk lists, and the final
`len(as) < len(bs)` once one of them is used up. The lengths compared in the digit
branch are those of runs of ASCII digits, where runes and bytes are the same. -/
def lessChunks : List Str → List Str → Bool
  | sa :: as, sb :: bs =>
    if startsWithDigit sa && startsWithDigit sb then
      let tsa := TrimLeft0 sa
      let tsb := TrimLeft0 sb
      if tsa.length ≠ tsb.length then decide (tsa.length < tsb.length)
      else if tsa ≠ tsb then strLess tsa tsb
      else lessChunks as bs
    else if sa ≠ sb then strLess sa sb
    else lessChunks as bs
  | [], _ :: _ => true
  | _, [] => false

/-- The function `naturalLess` of `app.go`. -/
def naturalLess (lower : Char → Char) (a b : Str) : Bool :=
  let aa := ToLower lower (Base a)
  let bb := ToLower lower (Base b)
  lessChunks (numChunk aa) (numChunk bb)

/-! ## The archive and the state of the application -/

/-- A failure reported by the zip library (`zip.OpenReader`, `File.Open`) or by
`io.ReadAll`. -/
structure ZipError where
  msg : String
  deriving DecidableEq

/-- An element of `zr.File`: its `Name`, what `FileInfo().IsDir()` answers, and
what `Open` followed by `io.ReadAll` delivers. -/
structure ZipFile where
  Name : Str
  IsDir : Bool
  Data : Except ZipError (List Nat)

/-- The errors the methods of `App` return: the one `GetPageDataURL` makes itself
with `fmt.Errorf`, and those handed on from the zip library. -/
inductive Error
  | invalidPageIndex
  | zip (e : ZipError)
  deriving DecidableEq

/-- The fields of `App` the methods work on: `zr` (`none` for `nil`, else the
entries `zr.File`) and `pageIdx`. -/
structure App where
  zr : Option (List ZipFile)
  pageIdx : List Nat

/-- The constructor `NewApp`. -/
def NewApp : App := { zr := none, pageIdx := [] }

/-- The loop `for i, f := range zr.File` of `OpenArchive`, started at index `i`:
directories are skipped, the indices of the image entries are appended. -/
def collectLoop (lower : Char → Char) : Nat → List ZipFile → List Nat
  | _, [] => []
  | i, f :: fs =>
    if f.IsDir then collectLoop lower (i + 1) fs
    else if isImage lower f.Name then i :: collectLoop lower (i + 1) fs
    else collectLoop lower (i + 1) fs

/-- The name `zr.File[i].Name`; the empty name stands in for an index outside `zr.File`,
which the program never forms. -/
def nameAt (files : List ZipFile) (i : Nat) : Str :=
  match files[i]? with
  | some f => f.Name
  | none => []

/-- The `less` closure `OpenArchive` hands to `sort.Slice`, as a relation between
the entry indices held in the two compared slots. -/
def pageLess (lower : Char → Char) (files : List ZipFile) (x y : Nat) : Bool :=
  naturalLess lower (nameAt files x) (nameAt files y)

/-- The method `App.OpenArchive`: the new state and the returned error (`none` for `nil`).
`rd` is `zip.OpenReader`, `srt` is `sort.Slice` acting on the slice `idxs`. -/
def OpenArchive (lower : Char → Char) (srt : (Nat → Nat → Bool) → List Nat → List Nat)
    (rd : Str → Except ZipError (List ZipFile)) (a : App) (path : Str) :
    App × Option Error :=
  let a1 : App := if a.zr.isSome then { zr := none, pageIdx := [] } else a
  match rd path with
  | .error e => (a1, some (.zip e))
  | .ok files =>
    let idxs := collectLoop lower 0 files
    ({ zr := some files, pageIdx := srt (pageLess lower files) idxs }, none)

/-- The method `App.ListPages`; `none` stands for the run-time panic of an index of `pageIdx`
outside `zr.File`. -/
def ListPages (a : App) : Option (List Str) :=
  match a.zr with
  | none => some []
  | some files => a.pageIdx.mapM (fun idx => (files[idx]?).map (fun f => Base f.Name))

/-- The method `App.GetPageDataURL`: the returned pair of string and error; `none` stands for
the run-time panic of an index of `pageIdx` outside `zr.File`. `enc` is
`base64.StdEncoding.EncodeToString`. -/
def GetPageDataURL (lower : Char → Char) (enc : List Nat → Str) (a : App) (index : Int) :
    Option (Str × Option Error) :=
  if a.zr.isNone ∨ index < 0 ∨ index ≥ (a.pageIdx.length : Int) then
    some ([], some .invalidPageIndex)
  else
    match a.zr.bind (fun files => (a.pageIdx[index.toNat]?).bind (fun i => files[i]?)) with
    | none => none
    | some f =>
      match f.Data with
      | .error e => some ([], some (.zip e))
      | .ok b =>
        some ("data:".toList ++ (mimeFromName lower f.Name).toList ++ ";base64,".toList ++ enc b,
          none)

/-- The method `App.CloseArchive`. -/
def CloseArchive (a : App) : App :=
  if a.zr.isSome then { zr := none, pageIdx := [] } else a

/-! ## The desktop viewer of src/cmd/main.go -/

/-- The map `supportedExts` of `loadImageList`, looked up at `ext`. -/
def supportedExts (ext : Str) : Bool :=
  if ext = ['.', 'j', 'p', 'g'] ∨ ext = ['.', 'j', 'p', 'e', 'g'] ∨ ext = ['.', 'p', 'n', 'g']
      ∨ ext = ['.', 'g', 'i', 'f'] ∨ ext = ['.', 'b', 'm', 'p']
  then true
  else false

/-- The function `sort.Strings`: the strings in increasing order of Go's `<`. That order is
total, so the sorted slice does not depend on the algorithm; insertion is the one
written here. -/
def sortStrings (l : List Str) : List Str :=
  l.insertionSort (fun a b => strLess b a = false)

/-- The loop of `ComicViewer.loadImageList` over `zipReader.File`. -/
def imageNames (lower : Char → Char) : List ZipFile → List Str
  | [] => []
  | f :: fs =>
    if f.IsDir then imageNames lower fs
    else if supportedExts (ToLower lower (Ext f.Name)) then f.Name :: imageNames lower fs
    else imageNames lower fs

/-- The method `ComicViewer.loadImageList`: the value left in `imageFiles`. -/
def loadImageList (lower : Char → Char) (files : List ZipFile) : List Str :=
  sortStrings (imageNames lower files)

/-! ## Vocabulary of the properties -/

/-- The natural number written by a string of decimal digits. -/
def digitsValue (s : Str) : Nat := s.foldl (fun n c => 10 * n + (c.toNat - 48)) 0

/-- The three answers of the comparator derived from `naturalLess`. -/
inductive Cmp
  | less
  | equal
  | greater
  deriving DecidableEq

/-- The three-way `compare(a, b)`: less when `naturalLess(a, b)`, greater when
`naturalLess(b, a)`, equal otherwise. -/
def compare (lower : Char → Char) (a b : Str) : Cmp :=
  if naturalLess lower a b then .less
  else if naturalLess lower b a then .greater
  else .equal

/-- A strict weak order: irreflexive, transitive, with transitive
incomparability. This is what `sort.Slice` asks of its `less`. -/
def IsStrictWeak (less : Nat → Nat → Bool) : Prop :=
  (∀ x, less x x = false) ∧
  (∀ x y z, less x y = true → less y z = true → less x z = true) ∧
  (∀ x y z, less x y = false → less y x = false → less y z = false → less z y = false →
    less x z = false ∧ less z x = false)

/-- What `sort.Slice` guarantees: it only swaps elements, so the slice is
rearranged; and when `less` is a strict weak order no element is left before one
it is less than. No promise is made about the order of elements that compare
equal. -/
def SortSliceSpec (srt : (Nat → Nat → Bool) → List Nat → List Nat) : Prop :=
  ∀ less l, (srt less l).Perm l ∧
    (IsStrictWeak less → (srt less l).Pairwise (fun x y => less y x = false))

/-- A sorting routine meeting `SortSliceSpec` that keeps ties in their original
order: insertion from the right. -/
def stableSort (less : Nat → Nat → Bool) (l : List Nat) : List Nat :=
  l.insertionSort (fun x y => less y x = false)

/-- The recognised image extensions, lowercased. -/
def imageExts : List Str :=
  [['.', 'j', 'p', 'g'], ['.', 'j', 'p', 'e', 'g'], ['.', 'p', 'n', 'g'], ['.', 'g', 'i', 'f'],
    ['.', 'w', 'e', 'b', 'p'], ['.', 'b', 'm', 'p']]

/-- The media types of images. -/
def imageMimes : List String :=
  ["image/jpeg", "image/png", "image/gif", "image/webp", "image/bmp"]

/-- An archive entry that is a regular file with the given name and no content. -/
def fileEntry (name : String) : ZipFile := { Name := name.toList, IsDir := false, Data := .ok [] }

/-- An archive entry that is a directory. -/
def dirEntry (name : String) : ZipFile := { Name := name.toList, IsDir := true, Data := .ok [] }

/-! ## The library routine sort.Slice

The routine behind `sort.Slice` since Go 1.19 is the pattern-defeating quicksort of
the package `sort` (`pdqsort_func` and its helpers). It is transcribed here on a
list `d` standing for the slice, with positions counted from 0. One helper is not
transcribed: `breakPatterns_func`, which swaps three elements near the middle with
pseudo-randomly chosen ones, is the parameter `brk`. -/

/-- The call `data.Less(i, j)`: the less function on the elements now held at the
positions `i` and `j`. -/
def lessAt (less : Nat → Nat → Bool) (d : List Nat) (i j : Nat) : Bool :=
  less (d.getD i 0) (d.getD j 0)

/-- The call `data.Swap(i, j)`. -/
def swapAt (d : List Nat) (i j : Nat) : List Nat :=
  (d.set i (d.getD j 0)).set j (d.getD i 0)

/-- The inner loop of `insertionSort_func`, entered with the loop variable `j`:
while `j > a` and `Less(j, j-1)`, swap the two and step `j` down. -/
def insertionInner (less : Nat → Nat → Bool) (a : Nat) : Nat → List Nat → List Nat
  | 0, d => d
  | j + 1, d =>
    if a < j + 1 ∧ lessAt less d (j + 1) j = true then
      insertionInner less a j (swapAt d (j + 1) j)
    else d

/-- The outer loop of `insertionSort_func`, with `n` rounds left and the loop
variable `i`. -/
def insertionOuter (less : Nat → Nat → Bool) (a : Nat) : Nat → Nat → List Nat → List Nat
  | 0, _, d => d
  | n + 1, i, d => insertionOuter less a n (i + 1) (insertionInner less a i d)

/-- The function `insertionSort_func`: sort `data[a:b]` by insertion; `i` runs
from `a + 1` to `b - 1`. -/
def insertionSort_func (less : Nat → Nat → Bool) (d : List Nat) (a b : Nat) : List Nat :=
  insertionOuter less a (b - (a + 1)) (a + 1) d

/-- The loop of `siftDown_func`, at the current `root`; it runs less than `hi`
times, since `root` grows and stays below `hi`. -/
def siftDownLoop (less : Nat → Nat → Bool) (hi first : Nat) : Nat → Nat → List Nat → List Nat
  | 0, _, d => d
  | n + 1, root, d =>
    if 2 * root + 1 ≥ hi then d
    else
      let child :=
        if 2 * root + 1 + 1 < hi ∧
            lessAt less d (first + (2 * root + 1)) (first + (2 * root + 1) + 1) = true
        then 2 * root + 1 + 1 else 2 * root + 1
      if lessAt less d (first + root) (first + child) = false then d
      else siftDownLoop less hi first n child (swapAt d (first + root) (first + child))

/-- The function `siftDown_func`. -/
def siftDown_func (less : Nat → Nat → Bool) (d : List Nat) (lo hi first : Nat) : List Nat :=
  siftDownLoop less hi first hi lo d

/-- The first loop of `heapSort_func`: `siftDown_func` for `i` from the given value
down to 0. -/
def heapBuild (less : Nat → Nat → Bool) (hi first : Nat) : Nat → List Nat → List Nat
  | 0, d => siftDown_func less d 0 hi first
  | i + 1, d => heapBuild less hi first i (siftDown_func less d (i + 1) hi first)

/-- The second loop of `heapSort_func`: for `i` from the given value down to 0, swap
the top of the heap to position `i` and restore the heap below it. -/
def heapPop (less : Nat → Nat → Bool) (first : Nat) : Nat → List Nat → List Nat
  | 0, d => siftDown_func less (swapAt d first first) 0 0 first
  | i + 1, d =>
    heapPop less first i (siftDown_func less (swapAt d first (first + (i + 1))) 0 (i + 1) first)

/-- The function `heapSort_func` on `data[a:b]`, for `b > a` (it is called on more
than 12 elements only). -/
def heapSort_func (less : Nat → Nat → Bool) (d : List Nat) (a b : Nat) : List Nat :=
  heapPop less a (b - a - 1) (heapBuild less (b - a) a ((b - a - 1) / 2) d)

/-- The type `sortedHint`. -/
inductive sortedHint
  | unknownHint
  | increasingHint
  | decreasingHint
  deriving DecidableEq

/-- The function `order2_func`: the two positions in the order of their elements,
and the count of swaps. -/
def order2_func (less : Nat → Nat → Bool) (d : List Nat) (a b swaps : Nat) : Nat × Nat × Nat :=
  if lessAt less d b a = true then (b, a, swaps + 1) else (a, b, swaps)

/-- The function `median_func`: the position of the median of three, and the count
of swaps. -/
def median_func (less : Nat → Nat → Bool) (d : List Nat) (a b c swaps : Nat) : Nat × Nat :=
  let r1 := order2_func less d a b swaps
  let r2 := order2_func less d r1.2.1 c r1.2.2
  let r3 := order2_func less d r1.1 r2.1 r2.2.2
  (r3.2.1, r3.2.2)

/-- The function `medianAdjacent_func`. -/
def medianAdjacent_func (less : Nat → Nat → Bool) (d : List Nat) (a swaps : Nat) : Nat × Nat :=
  median_func less d (a - 1) a (a + 1) swaps

/-- The function `choosePivot_func` on `data[a:b]`: a static pivot below 8
elements, the median of three below 50, the Tukey ninther from 50 on. -/
def choosePivot_func (less : Nat → Nat → Bool) (d : List Nat) (a b : Nat) : Nat × sortedHint :=
  let l := b - a
  let i := a + l / 4 * 1
  let j := a + l / 4 * 2
  let k := a + l / 4 * 3
  let r : Nat × Nat :=
    if l ≥ 8 then
      if l ≥ 50 then
        let ri := medianAdjacent_func less d i 0
        let rj := medianAdjacent_func less d j ri.2
        let rk := medianAdjacent_func less d k rj.2
        median_func less d ri.1 rj.1 rk.1 rk.2
      else median_func less d i j k 0
    else (j, 0)
  if r.2 = 0 then (r.1, sortedHint.increasingHint)
  else if r.2 = 12 then (r.1, sortedHint.decreasingHint)
  else (r.1, sortedHint.unknownHint)

/-- The loop of `reverseRange_func`. -/
def reverseLoop : Nat → Nat → Nat → List Nat → List Nat
  | 0, _, _, d => d
  | n + 1, i, j, d => if i < j then reverseLoop n (i + 1) (j - 1) (swapAt d i j) else d

/-- The function `reverseRange_func` on `data[a:b]`. -/
def reverseRange_func (d : List Nat) (a b : Nat) : List Nat :=
  reverseLoop (b - a) a (b - 1) d

/-- The loop `for i <= j && Less(i, a) { i++ }` of `partition_func`, with room for
`n` steps. -/
def skipLess (less : Nat → Nat → Bool) (d : List Nat) (a j : Nat) : Nat → Nat → Nat
  | 0, i => i
  | n + 1, i => if i ≤ j ∧ lessAt less d i a = true then skipLess less d a j n (i + 1) else i

/-- The loop `for i <= j && !Less(j, a) { j-- }` of `partition_func`. -/
def skipNotLess (less : Nat → Nat → Bool) (d : List Nat) (a i : Nat) : Nat → Nat → Nat
  | 0, j => j
  | n + 1, j =>
    if i ≤ j ∧ lessAt less d j a = false then skipNotLess less d a i n (j - 1) else j

/-- The final loop of `partition_func`; each round that does not leave it moves `i`
and `j` towards each other. The result is the slice and `j`. -/
def partitionLoop (less : Nat → Nat → Bool) (a : Nat) :
    Nat → Nat → Nat → List Nat → List Nat × Nat
  | 0, _, j, d => (d, j)
  | n + 1, i, j, d =>
    let i1 := skipLess less d a j (j + 1 - i) i
    let j1 := skipNotLess less d a i1 (j + 1 - i1) j
    if i1 > j1 then (d, j1)
    else partitionLoop less a n (i1 + 1) (j1 - 1) (swapAt d i1 j1)

/-- The function `partition_func` on `data[a:b]`: the slice, the new position of
the pivot, and whether the slice was already partitioned. -/
def partition_func (less : Nat → Nat → Bool) (d : List Nat) (a b pivot : Nat) :
    List Nat × Nat × Bool :=
  let d1 := swapAt d a pivot
  let i := skipLess less d1 a (b - 1) (b - 1 + 1 - (a + 1)) (a + 1)
  let j := skipNotLess less d1 a i (b - 1 + 1 - i) (b - 1)
  if i > j then (swapAt d1 j a, j, true)
  else
    let r := partitionLoop less a (b - a) (i + 1) (j - 1) (swapAt d1 i j)
    (swapAt r.1 r.2 a, r.2, false)

/-- The loop `for i <= j && !Less(a, i) { i++ }` of `partitionEqual_func`. -/
def skipNotGreater (less : Nat → Nat → Bool) (d : List Nat) (a j : Nat) : Nat → Nat → Nat
  | 0, i => i
  | n + 1, i =>
    if i ≤ j ∧ lessAt less d a i = false then skipNotGreater less d a j n (i + 1) else i

/-- The loop `for i <= j && Less(a, j) { j-- }` of `partitionEqual_func`. -/
def skipGreater (less : Nat → Nat → Bool) (d : List Nat) (a i : Nat) : Nat → Nat → Nat
  | 0, j => j
  | n + 1, j => if i ≤ j ∧ lessAt less d a j = true then skipGreater less d a i n (j - 1) else j

/-- The loop of `partitionEqual_func`; the result is the slice and `i`. -/
def partitionEqualLoop (less : Nat → Nat → Bool) (a : Nat) :
    Nat → Nat → Nat → List Nat → List Nat × Nat
  | 0, i, _, d => (d, i)
  | n + 1, i, j, d =>
    let i1 := skipNotGreater less d a j (j + 1 - i) i
    let j1 := skipGreater less d a i1 (j + 1 - i1) j
    if i1 > j1 then (d, i1)
    else partitionEqualLoop less a n (i1 + 1) (j1 - 1) (swapAt d i1 j1)

/-- The function `partitionEqual_func` on `data[a:b]`. -/
def partitionEqual_func (less : Nat → Nat → Bool) (d : List Nat) (a b pivot : Nat) :
    List Nat × Nat :=
  partitionEqualLoop less a (b - a + 1) (a + 1) (b - 1) (swapAt d a pivot)

/-- The loop `for i < b && !Less(i, i-1) { i++ }` of `partialInsertionSort_func`. -/
def skipOrdered (less : Nat → Nat → Bool) (d : List Nat) (b : Nat) : Nat → Nat → Nat
  | 0, i => i
  | n + 1, i =>
    if i < b ∧ lessAt less d i (i - 1) = false then skipOrdered less d b n (i + 1) else i

/-- The loop `for j := i - 1; j >= 1; j--` of `partialInsertionSort_func`, which
shifts the smaller element to the left. -/
def shiftLeft (less : Nat → Nat → Bool) : Nat → List Nat → List Nat
  | 0, d => d
  | j + 1, d =>
    if lessAt less d (j + 1) j = false then d else shiftLeft less j (swapAt d (j + 1) j)

/-- The loop `for j := i + 1; j < b; j++` of `partialInsertionSort_func`, which
shifts the greater element to the right. -/
def shiftRight (less : Nat → Nat → Bool) (b : Nat) : Nat → Nat → List Nat → List Nat
  | 0, _, d => d
  | n + 1, j, d =>
    if j < b then
      if lessAt less d j (j - 1) = false then d
      else shiftRight less b n (j + 1) (swapAt d j (j - 1))
    else d

/-- The loop of `partialInsertionSort_func` over its at most `maxSteps` rounds: the
slice, and whether it is sorted. -/
def partialInsertionLoop (less : Nat → Nat → Bool) (a b : Nat) :
    Nat → Nat → List Nat → List Nat × Bool
  | 0, _, d => (d, false)
  | n + 1, i, d =>
    let i1 := skipOrdered less d b (b - i) i
    if i1 = b then (d, true)
    else if b - a < 50 then (d, false)
    else
      let d1 := swapAt d i1 (i1 - 1)
      let d2 := if i1 - a ≥ 2 then shiftLeft less (i1 - 1) d1 else d1
      let d3 := if b - i1 ≥ 2 then shiftRight less b (b - i1) (i1 + 1) d2 else d2
      partialInsertionLoop less a b n i1 d3

/-- The function `partialInsertionSort_func` on `data[a:b]`. -/
def partialInsertionSort_func (less : Nat → Nat → Bool) (d : List Nat) (a b : Nat) :
    List Nat × Bool :=
  partialInsertionLoop less a b 5 (a + 1) d

/-- The loop behind `bits.Len`. -/
def bitsLenLoop : Nat → Nat → Nat
  | 0, _ => 0
  | n + 1, x => if x = 0 then 0 else 1 + bitsLenLoop n (x / 2)

/-- The function `bits.Len`: the number of bits needed to write `x`. -/
def bitsLen (x : Nat) : Nat := bitsLenLoop x x

/-- The function `pdqsort_func` on `data[a:b]`. The first argument bounds the number
of nested rounds and calls; every round and every call works on a strictly shorter
range, so `b - a + 1` is enough, and `none` is the answer only when the bound is
used up. The two flags are the local variables `wasBalanced` and `wasPartitioned`. -/
def pdqsort_func (brk : List Nat → Nat → Nat → List Nat) (less : Nat → Nat → Bool) :
    Nat → List Nat → Nat → Nat → Nat → Bool → Bool → Option (List Nat)
  | 0, _, _, _, _, _, _ => none
  | n + 1, d, a, b, limit, wasBalanced, wasPartitioned =>
    if b - a ≤ 12 then some (insertionSort_func less d a b)
    else if limit = 0 then some (heapSort_func less d a b)
    else
      let d1 := if wasBalanced = false then brk d a b else d
      let limit1 := if wasBalanced = false then limit - 1 else limit
      let pc := choosePivot_func less d1 a b
      let d2 := if pc.2 = sortedHint.decreasingHint then reverseRange_func d1 a b else d1
      let pivot := if pc.2 = sortedHint.decreasingHint then (b - 1) - (pc.1 - a) else pc.1
      let hint :=
        if pc.2 = sortedHint.decreasingHint then sortedHint.increasingHint else pc.2
      let ps : List Nat × Bool :=
        if wasBalanced = true ∧ wasPartitioned = true ∧ hint = sortedHint.increasingHint then
          partialInsertionSort_func less d2 a b
        else (d2, false)
      if ps.2 = true then some ps.1
      else if a > 0 ∧ lessAt less ps.1 (a - 1) pivot = false then
        let pe := partitionEqual_func less ps.1 a b pivot
        pdqsort_func brk less n pe.1 pe.2 b limit1 wasBalanced wasPartitioned
      else
        let pt := partition_func less ps.1 a b pivot
        let mid := pt.2.1
        if mid - a < b - mid then
          match pdqsort_func brk less n pt.1 a mid limit1 true true with
          | none => none
          | some d3 =>
            pdqsort_func brk less n d3 (mid + 1) b limit1
              (decide (mid - a ≥ (b - a) / 8)) pt.2.2
        else
          match pdqsort_func brk less n pt.1 (mid + 1) b limit1 true true with
          | none => none
          | some d3 =>
            pdqsort_func brk less n d3 a mid limit1
              (decide (b - mid ≥ (b - a) / 8)) pt.2.2

/-- The function `sort.Slice` on the slice `l`, or `none` if the bound on the rounds
of `pdqsort_func` were used up. -/
def Slice (brk : List Nat → Nat → Nat → List Nat) (less : Nat → Nat → Bool) (l : List Nat) :
    Option (List Nat) :=
  pdqsort_func brk less (l.length + 1) l 0 l.length (bitsLen l.length) true true

/-- The slice after `sort.Slice`. -/
def sortSlice (brk : List Nat → Nat → Nat → List Nat) (less : Nat → Nat → Bool)
    (l : List Nat) : List Nat :=
  (Slice brk less l).getD l

/-- An archive of thirteen pages: the first page of each of twelve chapters, then a
cover. -/
def chapters : List ZipFile :=
  [fileEntry "ch01/001.jpg", fileEntry "ch02/001.jpg", fileEntry "ch03/001.jpg",
    fileEntry "ch04/001.jpg", fileEntry "ch05/001.jpg", fileEntry "ch06/001.jpg",
    fileEntry "ch07/001.jpg", fileEntry "ch08/001.jpg", fileEntry "ch09/001.jpg",
    fileEntry "ch10/001.jpg", fileEntry "ch11/001.jpg", fileEntry "ch12/001.jpg",
    fileEntry "cover/000.jpg"]

/-! ## Auxiliary definitions for the proofs -/

/-- Compare two lists position by position with `R`; the first position where the
elements are not tied decides; when one list runs out the shorter one is less. -/
def lexLess {α : Type} (R : α → α → Bool) : List α → List α → Bool
  | x :: xs, y :: ys => if R x y then true else if R y x then false else lexLess R xs ys
  | [], _ :: _ => true
  | _, [] => false

/-- The rank of a chunk in the order `naturalLess` compares chunks by: a chunk
starting with a digit ranks by the length and then the content of its zero-stripped
form, any other chunk by its first rune and then its content. -/
def chunkKey : Str → Nat × Nat × Str
  | [] => (0, 0, [])
  | c :: cs =>
    if isDigit c then (48, (TrimLeft0 (c :: cs)).length, TrimLeft0 (c :: cs))
    else (c.toNat, 0, c :: cs)

/-- The lexicographic order of the ranks. -/
def keyLess (k l : Nat × Nat × Str) : Bool :=
  decide (k.1 < l.1) ||
    (decide (k.1 = l.1) &&
      (decide (k.2.1 < l.2.1) || (decide (k.2.1 = l.2.1) && strLess k.2.2 l.2.2)))

/-- The comparison of two chunks at one position of the loop of `naturalLess`. -/
def chunkLess (sa sb : Str) : Bool := keyLess (chunkKey sa) (chunkKey sb)

/-- The inner loop of `insertionSort_func` seen on the sorted part before the
moving element `x`, given last element first: `x` passes every element it is less
than and stops behind the first one it is not less than. -/
def sinkList (less : Nat → Nat → Bool) (x : Nat) : List Nat → List Nat
  | [] => [x]
  | y :: r => if less x y = true then y :: sinkList less x r else x :: y :: r

/-- The order in which a stable sort leaves the entry indices: by `less`, and by
the index itself among entries that `less` does not separate. -/
def tieLess (less : Nat → Nat → Bool) (x y : Nat) : Prop :=
  less x y = true ∨ (less y x = false ∧ x < y)

/-! ## Go's string order is a strict total order -/

theorem toNat_eq {a b : Char} (h : a.toNat = b.toNat) : a = b := by
  have := congrArg Char.ofNat h
  simpa using this

theorem strLess_cons (a b : Char) (as bs : Str) :
    strLess (a :: as) (b :: bs) = true ↔
      a.toNat < b.toNat ∨ (a.toNat = b.toNat ∧ strLess as bs = true) := by
  simp only [strLess]
  split_ifs with h1 h2
  · simp [h1]
  · simp; omega
  · have : a.toNat = b.toNat := by omega
    simp [this]

theorem strLess_irrefl : ∀ s : Str, strLess s s = false
  | [] => rfl
  | c :: cs => by
    have ih := strLess_irrefl cs
    rw [Bool.eq_false_iff]
    intro h
    rw [strLess_cons] at h
    rcases h with h | ⟨_, h⟩
    · omega
    · simp [ih] at h

theorem strLess_trans : ∀ a b c : Str,
    strLess a b = true → strLess b c = true → strLess a c = true
  | [], [], _ => by simp [strLess]
  | [], _ :: _, [] => by simp [strLess]
  | [], _ :: _, _ :: _ => by simp [strLess]
  | _ :: _, [], _ => by simp [strLess]
  | _ :: _, _ :: _, [] => by simp [strLess]
  | x :: xs, y :: ys, z :: zs => by
    have ih := strLess_trans xs ys zs
    simp only [strLess_cons]
    rintro (h1 | ⟨h1, h1x⟩) (h2 | ⟨h2, h2x⟩)
    · left; omega
    · left; omega
    · left; omega
    · right; exact ⟨by omega, ih h1x h2x⟩

theorem strLess_total : ∀ a b : Str, a ≠ b → strLess a b = true ∨ strLess b a = true
  | [], [] => by simp
  | [], _ :: _ => by simp [strLess]
  | _ :: _, [] => by simp [strLess]
  | x :: xs, y :: ys => by
    intro hne
    simp only [strLess_cons]
    rcases Nat.lt_trichotomy x.toNat y.toNat with h | h | h
    · left; left; exact h
    · have hxy : x = y := toNat_eq h
      have hne2 : xs ≠ ys := by
        intro e; exact hne (by rw [hxy, e])
      rcases strLess_total xs ys hne2 with h3 | h3
      · left; right; exact ⟨h, h3⟩
      · right; right; exact ⟨h.symm, h3⟩
    · right; left; exact h

theorem strLess_asymm (a b : Str) (h : strLess a b = true) : strLess b a = false := by
  rw [Bool.eq_false_iff]
  intro h2
  have := strLess_trans a b a h h2
  simp [strLess_irrefl] at this

/-! ## A lexicographic comparison with early exit -/

theorem lexLess_irrefl {α : Type} (R : α → α → Bool) (hi : ∀ x, R x x = false) : ∀ l : List α, lexLess R l l = false
  | [] => rfl
  | x :: xs => by simp [lexLess, hi, lexLess_irrefl R hi xs]

theorem lexLess_trans {α : Type} (R : α → α → Bool)
    (ht : ∀ x y z, R x y = true → R y z = true → R x z = true)
    (hn : ∀ x y z, R x z = true → R x y = true ∨ R y z = true) :
    ∀ a b c : List α, lexLess R a b = true → lexLess R b c = true → lexLess R a c = true
  | [], [], _ => by simp [lexLess]
  | [], _ :: _, [] => by simp [lexLess]
  | [], _ :: _, _ :: _ => by simp [lexLess]
  | _ :: _, [], _ => by simp [lexLess]
  | _ :: _, _ :: _, [] => by simp [lexLess]
  | x :: xs, y :: ys, z :: zs => by
    have ih := lexLess_trans R ht hn xs ys zs
    intro h1 h2
    simp only [lexLess] at h1 h2 ⊢
    by_cases hxy : R x y = true
    · by_cases hyz : R y z = true
      · simp [ht x y z hxy hyz]
      · by_cases hzy : R z y = true
        · simp [hyz, hzy] at h2
        · rcases hn x z y hxy with h | h
          · simp [h]
          · exact absurd h hzy
    · by_cases hyx : R y x = true
      · simp [hxy, hyx] at h1
      · simp only [hxy, hyx, if_false, Bool.false_eq_true] at h1
        by_cases hyz : R y z = true
        · rcases hn y x z hyz with h | h
          · exact absurd h hyx
          · simp [h]
        · by_cases hzy : R z y = true
          · simp [hyz, hzy] at h2
          · simp only [hyz, hzy, if_false, Bool.false_eq_true] at h2
            have hxz : ¬ R x z = true := fun h => by
              rcases hn x y z h with h | h
              · exact hxy h
              · exact hyz h
            have hzx : ¬ R z x = true := fun h => by
              rcases hn z y x h with h | h
              · exact hzy h
              · exact hyx h
            simp only [hxz, hzx, if_false, Bool.false_eq_true]
            exact ih h1 h2

theorem lexLess_negtrans {α : Type} (R : α → α → Bool) (hi : ∀ x, R x x = false)
    (ht : ∀ x y z, R x y = true → R y z = true → R x z = true)
    (hn : ∀ x y z, R x z = true → R x y = true ∨ R y z = true) :
    ∀ a b c : List α, lexLess R a c = true → lexLess R a b = true ∨ lexLess R b c = true
  | [], [], _ => by simp [lexLess]
  | [], _ :: _, _ => by simp [lexLess]
  | _ :: _, _, [] => by simp [lexLess]
  | _ :: _, [], _ :: _ => by simp [lexLess]
  | x :: xs, y :: ys, z :: zs => by
    have ih := lexLess_negtrans R hi ht hn xs ys zs
    intro h
    simp only [lexLess] at h ⊢
    by_cases hxy : R x y = true
    · simp [hxy]
    · by_cases hyz : R y z = true
      · simp [hyz]
      · have hxz : ¬ R x z = true := fun h => by
          rcases hn x y z h with h | h
          · exact hxy h
          · exact hyz h
        by_cases hzx : R z x = true
        · simp [hxz, hzx] at h
        · simp only [hxz, hzx, if_false, Bool.false_eq_true] at h
          by_cases hyx : R y x = true
          · exfalso
            rcases hn y z x hyx with h | h
            · exact hyz h
            · exact hzx h
          · by_cases hzy : R z y = true
            · exfalso
              rcases hn z x y hzy with h | h
              · exact hzx h
              · exact hxy h
            · simp only [hxy, hyx, hyz, hzy, if_false, Bool.false_eq_true]
              exact ih h

theorem lexLess_append_left {α : Type} (R : α → α → Bool) (hi : ∀ x, R x x = false)
    (p : List α) (a b : List α) :
    lexLess R (p ++ a) (p ++ b) = lexLess R a b := by
  induction p with
  | nil => rfl
  | cons x xs ih => simp [lexLess, hi, ih]

/-! ## The order of the chunks -/

theorem keyLess_iff (k l : Nat × Nat × Str) :
    keyLess k l = true ↔
      k.1 < l.1 ∨ (k.1 = l.1 ∧ (k.2.1 < l.2.1 ∨ (k.2.1 = l.2.1 ∧ strLess k.2.2 l.2.2 = true))) := by
  simp [keyLess]

theorem keyLess_irrefl (k : Nat × Nat × Str) : keyLess k k = false := by
  rw [Bool.eq_false_iff, Ne, keyLess_iff]
  simp [strLess_irrefl]

theorem keyLess_trans (k l m : Nat × Nat × Str)
    (h1 : keyLess k l = true) (h2 : keyLess l m = true) : keyLess k m = true := by
  rw [keyLess_iff] at h1 h2 ⊢
  rcases h1 with h1 | ⟨e1, h1 | ⟨e1b, h1⟩⟩ <;> rcases h2 with h2 | ⟨e2, h2 | ⟨e2b, h2⟩⟩
  · left; omega
  · left; omega
  · left; omega
  · left; omega
  · right; exact ⟨by omega, Or.inl (by omega)⟩
  · right; exact ⟨by omega, Or.inl (by omega)⟩
  · left; omega
  · right; exact ⟨by omega, Or.inl (by omega)⟩
  · right; exact ⟨by omega, Or.inr ⟨by omega, strLess_trans _ _ _ h1 h2⟩⟩

theorem keyLess_total (k l : Nat × Nat × Str) (hne : k ≠ l) :
    keyLess k l = true ∨ keyLess l k = true := by
  simp only [keyLess_iff]
  obtain ⟨k1, k2, k3⟩ := k
  obtain ⟨l1, l2, l3⟩ := l
  simp only
  rcases Nat.lt_trichotomy k1 l1 with h | h | h
  · left; left; exact h
  · rcases Nat.lt_trichotomy k2 l2 with h' | h' | h'
    · left; right; exact ⟨h, Or.inl h'⟩
    · have hne3 : k3 ≠ l3 := by
        intro e; apply hne; rw [h, h', e]
      rcases strLess_total k3 l3 hne3 with h3 | h3
      · left; right; exact ⟨h, Or.inr ⟨h', h3⟩⟩
      · right; right; exact ⟨h.symm, Or.inr ⟨h'.symm, h3⟩⟩
    · right; right; exact ⟨h.symm, Or.inl h'⟩
  · right; left; exact h

theorem keyLess_negtrans (k l m : Nat × Nat × Str) (h : keyLess k m = true) :
    keyLess k l = true ∨ keyLess l m = true := by
  by_cases e : k = l
  · right; rw [← e]; exact h
  · rcases keyLess_total k l e with h1 | h1
    · left; exact h1
    · right; exact keyLess_trans l k m h1 h

theorem chunkLess_irrefl (x : Str) : chunkLess x x = false := keyLess_irrefl _

theorem chunkLess_trans (x y z : Str) :
    chunkLess x y = true → chunkLess y z = true → chunkLess x z = true :=
  keyLess_trans _ _ _

theorem chunkLess_negtrans (x y z : Str) :
    chunkLess x z = true → chunkLess x y = true ∨ chunkLess y z = true :=
  keyLess_negtrans _ _ _

theorem isDigit_iff (c : Char) : isDigit c = true ↔ 48 ≤ c.toNat ∧ c.toNat ≤ 57 := by
  simp [isDigit]

/-- Two chunks that both start with a digit are ranked by the zero-stripped
length, then by the zero-stripped content. -/
theorem chunkLess_digits (sa sb : Str) (ha : startsWithDigit sa = true)
    (hb : startsWithDigit sb = true) :
    chunkLess sa sb = true ↔
      (TrimLeft0 sa).length < (TrimLeft0 sb).length ∨
        ((TrimLeft0 sa).length = (TrimLeft0 sb).length ∧
          strLess (TrimLeft0 sa) (TrimLeft0 sb) = true) := by
  cases sa with
  | nil => simp [startsWithDigit] at ha
  | cons a as =>
    cases sb with
    | nil => simp [startsWithDigit] at hb
    | cons b bs =>
      simp only [startsWithDigit] at ha hb
      simp [chunkLess, chunkKey, ha, hb, keyLess_iff]

/-- In every other case two chunks are ranked as Go strings. -/
theorem chunkLess_mixed (sa sb : Str)
    (h : (startsWithDigit sa && startsWithDigit sb) = false) :
    chunkLess sa sb = strLess sa sb := by
  rw [Bool.eq_iff_iff]
  cases sa with
  | nil =>
    cases sb with
    | nil => simp [chunkLess, chunkKey, keyLess_iff, strLess]
    | cons b bs =>
      by_cases hb : isDigit b = true
      · simp [chunkLess, chunkKey, keyLess_iff, strLess, hb]
      · simp only [chunkLess, chunkKey, keyLess_iff, strLess, hb]
        simp
        omega
  | cons a as =>
    cases sb with
    | nil =>
      by_cases ha : isDigit a = true
      · simp [chunkLess, chunkKey, keyLess_iff, strLess, ha]
      · simp [chunkLess, chunkKey, keyLess_iff, strLess, ha]
    | cons b bs =>
      rw [strLess_cons]
      by_cases ha : isDigit a = true <;> by_cases hb : isDigit b = true
      · simp [startsWithDigit, ha, hb] at h
      · have ha2 := (isDigit_iff a).1 ha
        have hb2 : ¬ (48 ≤ b.toNat ∧ b.toNat ≤ 57) := fun e => hb ((isDigit_iff b).2 e)
        simp only [chunkLess, chunkKey, keyLess_iff, ha, hb, if_true, if_false,
          Bool.false_eq_true]
        constructor
        · rintro (h1 | ⟨h1, _⟩)
          · left; omega
          · omega
        · rintro (h1 | ⟨h1, _⟩)
          · left; omega
          · omega
      · have hb2 := (isDigit_iff b).1 hb
        have ha2 : ¬ (48 ≤ a.toNat ∧ a.toNat ≤ 57) := fun e => ha ((isDigit_iff a).2 e)
        simp only [chunkLess, chunkKey, keyLess_iff, ha, hb, if_true, if_false,
          Bool.false_eq_true]
        constructor
        · rintro (h1 | ⟨h1, _⟩)
          · left; omega
          · omega
        · rintro (h1 | ⟨h1, _⟩)
          · left; omega
          · omega
      · simp only [chunkLess, chunkKey, keyLess_iff, ha, hb, if_false, Bool.false_eq_true,
          strLess_cons]
        constructor
        · rintro (h1 | ⟨h1, h2 | ⟨_, h2 | h2⟩⟩)
          · left; exact h1
          · omega
          · left; exact h2
          · right; exact h2
        · rintro (h1 | ⟨h1, h2⟩)
          · left; exact h1
          · right; exact ⟨h1, Or.inr ⟨trivial, Or.inr ⟨h1, h2⟩⟩⟩

/-- The loop of `naturalLess` is the lexicographic comparison of the chunk lists
by `chunkLess`. -/
theorem lessChunks_eq_lex : ∀ as bs : List Str, lessChunks as bs = lexLess chunkLess as bs
  | [], [] => rfl
  | [], _ :: _ => rfl
  | _ :: _, [] => rfl
  | sa :: as, sb :: bs => by
    have ih := lessChunks_eq_lex as bs
    simp only [lessChunks, lexLess]
    by_cases hd : (startsWithDigit sa && startsWithDigit sb) = true
    · have hd2 := hd
      simp only [Bool.and_eq_true] at hd2
      have h1 := chunkLess_digits sa sb hd2.1 hd2.2
      have h2 := chunkLess_digits sb sa hd2.2 hd2.1
      rw [if_pos hd]
      by_cases hl : (TrimLeft0 sa).length = (TrimLeft0 sb).length
      · by_cases he : TrimLeft0 sa = TrimLeft0 sb
        · have c1 : chunkLess sa sb = false := by
            rw [Bool.eq_false_iff, Ne, h1, he]; simp [strLess_irrefl]
          have c2 : chunkLess sb sa = false := by
            rw [Bool.eq_false_iff, Ne, h2, he]; simp [strLess_irrefl]
          simp [he, c1, c2, ih]
        · rcases strLess_total _ _ he with h3 | h3
          · have c1 : chunkLess sa sb = true := h1.2 (Or.inr ⟨hl, h3⟩)
            simp [hl, he, c1, h3]
          · have h4 := strLess_asymm _ _ h3
            have c1 : chunkLess sa sb = false := by
              rw [Bool.eq_false_iff, Ne, h1]; simp [hl, h4]
            have c2 : chunkLess sb sa = true := h2.2 (Or.inr ⟨hl.symm, h3⟩)
            simp [hl, he, c1, c2, h4]
      · rcases Nat.lt_or_gt_of_ne hl with h3 | h3
        · have c1 : chunkLess sa sb = true := h1.2 (Or.inl h3)
          simp [hl, c1, h3]
        · have c1 : chunkLess sa sb = false := by
            rw [Bool.eq_false_iff, Ne, h1]
            rintro (h | ⟨h, _⟩) <;> omega
          have c2 : chunkLess sb sa = true := h2.2 (Or.inl h3)
          have h5 : ¬ (TrimLeft0 sa).length < (TrimLeft0 sb).length := by omega
          simp [hl, c1, c2, h5]
    · have hd1 : (startsWithDigit sa && startsWithDigit sb) = false := by
        simpa using hd
      have hd2 : (startsWithDigit sb && startsWithDigit sa) = false := by
        rw [Bool.and_comm]; exact hd1
      rw [if_neg hd, chunkLess_mixed sa sb hd1, chunkLess_mixed sb sa hd2]
      by_cases he : sa = sb
      · simp [he, strLess_irrefl, ih]
      · rcases strLess_total _ _ he with h3 | h3
        · simp [he, h3]
        · simp [he, h3, strLess_asymm _ _ h3]

/-! ## naturalLess is a strict weak order -/

theorem lessChunks_irrefl (l : List Str) : lessChunks l l = false := by
  rw [lessChunks_eq_lex]; exact lexLess_irrefl _ chunkLess_irrefl l

theorem lessChunks_trans (a b c : List Str) (h1 : lessChunks a b = true)
    (h2 : lessChunks b c = true) : lessChunks a c = true := by
  simp only [lessChunks_eq_lex] at *
  exact lexLess_trans _ chunkLess_trans chunkLess_negtrans a b c h1 h2

theorem lessChunks_negtrans (a b c : List Str) (h : lessChunks a c = true) :
    lessChunks a b = true ∨ lessChunks b c = true := by
  simp only [lessChunks_eq_lex] at *
  exact lexLess_negtrans _ chunkLess_irrefl chunkLess_trans chunkLess_negtrans a b c h

theorem naturalLess_irrefl (lower : Char → Char) (a : Str) : naturalLess lower a a = false :=
  lessChunks_irrefl _

theorem naturalLess_trans (lower : Char → Char) (a b c : Str)
    (h1 : naturalLess lower a b = true) (h2 : naturalLess lower b c = true) :
    naturalLess lower a c = true :=
  lessChunks_trans _ _ _ h1 h2

theorem naturalLess_negtrans (lower : Char → Char) (a b c : Str)
    (h : naturalLess lower a c = true) :
    naturalLess lower a b = true ∨ naturalLess lower b c = true :=
  lessChunks_negtrans _ _ _ h

theorem naturalLess_asymm (lower : Char → Char) (a b : Str)
    (h : naturalLess lower a b = true) : naturalLess lower b a = false := by
  rw [Bool.eq_false_iff]
  intro h2
  have := naturalLess_trans lower a b a h h2
  simp [naturalLess_irrefl] at this

/-! ## Paths without a slash, runs of digits -/

theorem dropWhile_of_head {α : Type} (p : α → Bool) (l : List α)
    (h : ∀ c, l.head? = some c → p c = false) : l.dropWhile p = l := by
  cases l with
  | nil => rfl
  | cons a as =>
    have := h a rfl
    simp [List.dropWhile_cons, this]

theorem Base_of_no_slash (x : Str) (hx : x ≠ []) (hs : ∀ c ∈ x, c ≠ '/') : Base x = x := by
  have h1 : x.reverse.dropWhile (fun c => c == '/') = x.reverse := by
    apply dropWhile_of_head
    intro c hc
    have hmem : c ∈ x.reverse := List.mem_of_mem_head? hc
    have := hs c (List.mem_reverse.1 hmem)
    simpa using this
  have h2 : x.reverse.takeWhile (fun c => c != '/') = x.reverse := by
    rw [List.takeWhile_eq_self_iff]
    intro c hc
    have := hs c (List.mem_reverse.1 hc)
    simpa using this
  simp only [Base, hx, if_false, h1, h2, List.reverse_reverse]

theorem pushRune_append (c d : Char) (ds : Str) (rest more : List Str) :
    pushRune c (((d :: ds) :: rest) ++ more) = pushRune c ((d :: ds) :: rest) ++ more := by
  simp only [pushRune, List.cons_append]
  split_ifs <;> simp

theorem numChunk_head (d : Char) (ds : Str) :
    ∃ x rest, numChunk (d :: ds) = (d :: x) :: rest := by
  simp only [numChunk]
  cases h : numChunk ds with
  | nil => exact ⟨[], [], rfl⟩
  | cons r rest =>
    cases r with
    | nil => exact ⟨[], [] :: rest, rfl⟩
    | cons e es =>
      simp only [pushRune]
      split_ifs
      · exact ⟨e :: es, rest, rfl⟩
      · exact ⟨[], (e :: es) :: rest, rfl⟩

/-- Chunking splits at a boundary between a digit and a non-digit. -/
theorem numChunk_append (P R : Str)
    (h : ∀ c d, P.getLast? = some c → R.head? = some d → isDigit c ≠ isDigit d) :
    numChunk (P ++ R) = numChunk P ++ numChunk R := by
  induction P with
  | nil => rfl
  | cons c P ih =>
    cases P with
    | nil =>
      cases R with
      | nil => simp [numChunk]
      | cons d ds =>
        obtain ⟨x, rest, hx⟩ := numChunk_head d ds
        have hne := h c d rfl rfl
        show pushRune c (numChunk (d :: ds)) = pushRune c (numChunk []) ++ numChunk (d :: ds)
        rw [hx]
        simp [pushRune, numChunk, hne]
    | cons c2 P2 =>
      have ih2 := ih (by
        intro a b ha hb
        exact h a b (by simpa [List.getLast?_cons_cons] using ha) hb)
      obtain ⟨x, rest, hx⟩ := numChunk_head c2 P2
      show pushRune c (numChunk (c2 :: P2 ++ R)) = pushRune c (numChunk (c2 :: P2)) ++ numChunk R
      rw [ih2, hx, pushRune_append]

/-- A run of digits followed by a non-digit (or by nothing) is one chunk. -/
theorem numChunk_run (s : Str) (hs : s ≠ []) (hd : ∀ c ∈ s, isDigit c = true) (Q : Str)
    (hQ : ∀ c, Q.head? = some c → isDigit c = false) :
    numChunk (s ++ Q) = s :: numChunk Q := by
  induction s with
  | nil => exact absurd rfl hs
  | cons c s ih =>
    cases s with
    | nil =>
      cases Q with
      | nil => rfl
      | cons d ds =>
        obtain ⟨x, rest, hx⟩ := numChunk_head d ds
        have h1 := hd c (by simp)
        have h2 := hQ d rfl
        show pushRune c (numChunk (d :: ds)) = [c] :: numChunk (d :: ds)
        rw [hx]
        simp [pushRune, h1, h2]
    | cons c2 s2 =>
      have ih2 := ih (by simp) (by
        intro a ha
        exact hd a (List.mem_cons_of_mem _ ha))
      have h1 := hd c (by simp)
      have h2 := hd c2 (by simp)
      show pushRune c (numChunk (c2 :: s2 ++ Q)) = (c :: c2 :: s2) :: numChunk Q
      rw [ih2]
      simp [pushRune, h1, h2]

/-! ## The chunks are the maximal runs -/

/-- The chunks, put end to end, give the text back. -/
theorem numChunk_flatten : ∀ s : Str, (numChunk s).flatten = s
  | [] => rfl
  | c :: cs => by
    have ih := numChunk_flatten cs
    simp only [numChunk]
    cases h : numChunk cs with
    | nil =>
      rw [h] at ih
      simp only [List.flatten_nil] at ih
      simp [pushRune, ← ih]
    | cons r rest =>
      rw [h] at ih
      cases r with
      | nil => simpa [pushRune] using ih
      | cons d ds =>
        simp only [pushRune]
        split_ifs
        · simpa using ih
        · simpa using ih

/-- Every chunk is a non-empty run of runes of one kind. -/
theorem numChunk_uniform : ∀ s : Str, ∀ ch ∈ numChunk s,
    ch ≠ [] ∧ ∀ c ∈ ch, isDigit c = startsWithDigit ch
  | [] => by simp [numChunk]
  | c :: cs => by
    have ih := numChunk_uniform cs
    simp only [numChunk]
    cases h : numChunk cs with
    | nil =>
      intro ch hch
      simp only [pushRune, List.mem_singleton] at hch
      subst hch
      simp [startsWithDigit]
    | cons r rest =>
      rw [h] at ih
      cases r with
      | nil => exact absurd rfl (ih [] (by simp)).1
      | cons d ds =>
        have hr := (ih (d :: ds) (by simp)).2
        simp only [startsWithDigit] at hr
        simp only [pushRune]
        split_ifs with e
        · intro ch hch
          rcases List.mem_cons.1 hch with hch | hch
          · subst hch
            refine ⟨by simp, ?_⟩
            intro x hx
            simp only [startsWithDigit]
            rcases List.mem_cons.1 hx with hx | hx
            · rw [hx]
            · rw [hr x hx, e]
          · exact ih ch (List.mem_cons_of_mem _ hch)
        · intro ch hch
          rcases List.mem_cons.1 hch with hch | hch
          · subst hch
            simp [startsWithDigit]
          · exact ih ch hch

/-- Two chunks in a row are of different kinds, so no chunk can be extended. -/
theorem numChunk_alternates : ∀ s : Str,
    (numChunk s).Chain' (fun x y => startsWithDigit x ≠ startsWithDigit y)
  | [] => by simp [numChunk]
  | c :: cs => by
    have ih := numChunk_alternates cs
    simp only [numChunk]
    cases h : numChunk cs with
    | nil => simp [pushRune]
    | cons r rest =>
      rw [h] at ih
      cases r with
      | nil =>
        have := (numChunk_uniform cs [] (by rw [h]; simp)).1
        exact absurd rfl this
      | cons d ds =>
        simp only [pushRune]
        split_ifs with e
        · cases rest with
          | nil => simp
          | cons r2 rest2 =>
            rw [List.chain'_cons] at ih ⊢
            refine ⟨?_, ih.2⟩
            have := ih.1
            simp only [startsWithDigit] at this ⊢
            rw [e]; exact this
        · rw [List.chain'_cons]
          exact ⟨by simpa [startsWithDigit] using e, ih⟩

/-! ## Decimal numerals -/

theorem foldl_digits (u : Str) : ∀ a : Nat,
    u.foldl (fun n c => 10 * n + (c.toNat - 48)) a =
      a * 10 ^ u.length + u.foldl (fun n c => 10 * n + (c.toNat - 48)) 0 := by
  induction u with
  | nil => intro a; simp
  | cons c u ih =>
    intro a
    simp only [List.foldl_cons, List.length_cons]
    rw [ih (10 * a + (c.toNat - 48)), ih (10 * 0 + (c.toNat - 48))]
    ring

theorem digitsValue_cons (c : Char) (u : Str) :
    digitsValue (c :: u) = (c.toNat - 48) * 10 ^ u.length + digitsValue u := by
  simp only [digitsValue, List.foldl_cons]
  rw [foldl_digits u (10 * 0 + (c.toNat - 48))]
  simp

theorem digitsValue_lt (u : Str) (hd : ∀ c ∈ u, isDigit c = true) :
    digitsValue u < 10 ^ u.length := by
  induction u with
  | nil => simp [digitsValue]
  | cons c u ih =>
    have h1 := (isDigit_iff c).1 (hd c (by simp))
    have h2 := ih (fun a ha => hd a (List.mem_cons_of_mem _ ha))
    rw [digitsValue_cons, List.length_cons, pow_succ]
    have h3 : (c.toNat - 48) * 10 ^ u.length ≤ 9 * 10 ^ u.length :=
      Nat.mul_le_mul_right _ (by omega)
    omega

theorem digitsValue_trim (s : Str) : digitsValue (TrimLeft0 s) = digitsValue s := by
  induction s with
  | nil => rfl
  | cons c s ih =>
    by_cases hc : c = '0'
    · subst hc
      have : TrimLeft0 ('0' :: s) = TrimLeft0 s := by simp [TrimLeft0]
      rw [this, ih, digitsValue_cons]
      simp
    · have : TrimLeft0 (c :: s) = c :: s := by simp [TrimLeft0, hc]
      rw [this]

theorem trim_digits (s : Str) (hd : ∀ c ∈ s, isDigit c = true) :
    ∀ c ∈ TrimLeft0 s, isDigit c = true := fun c hc =>
  hd c ((List.dropWhile_sublist _).subset hc)

theorem trim_head (s : Str) : ∀ c, (TrimLeft0 s).head? = some c → c ≠ '0' := by
  intro c hc
  have := List.head?_dropWhile_not (fun c => c == '0') s
  rw [show List.dropWhile (fun c => c == '0') s = TrimLeft0 s from rfl, hc] at this
  simpa using this

/-- A numeral without leading zero is at least the power of ten of its length. -/
theorem digitsValue_ge (c : Char) (u : Str) (hc : isDigit c = true) (h0 : c ≠ '0') :
    10 ^ u.length ≤ digitsValue (c :: u) := by
  have h1 := (isDigit_iff c).1 hc
  have h2 : c.toNat ≠ 48 := fun e => h0 (toNat_eq (by rw [e]; rfl))
  rw [digitsValue_cons]
  have h3 : 1 * 10 ^ u.length ≤ (c.toNat - 48) * 10 ^ u.length :=
    Nat.mul_le_mul_right _ (by omega)
  omega

/-- On numerals of the same length the string order is the order of the values. -/
theorem strLess_iff_value : ∀ u v : Str, u.length = v.length →
    (∀ c ∈ u, isDigit c = true) → (∀ c ∈ v, isDigit c = true) →
    (strLess u v = true ↔ digitsValue u < digitsValue v)
  | [], [], _, _, _ => by simp [strLess, digitsValue]
  | [], _ :: _, h, _, _ => by simp at h
  | _ :: _, [], h, _, _ => by simp at h
  | a :: u, b :: v, h, hu, hv => by
    have hl : u.length = v.length := by simpa using h
    have ih := strLess_iff_value u v hl (fun c hc => hu c (List.mem_cons_of_mem _ hc))
      (fun c hc => hv c (List.mem_cons_of_mem _ hc))
    have ha := (isDigit_iff a).1 (hu a (by simp))
    have hb := (isDigit_iff b).1 (hv b (by simp))
    have bu := digitsValue_lt u (fun c hc => hu c (List.mem_cons_of_mem _ hc))
    have bv := digitsValue_lt v (fun c hc => hv c (List.mem_cons_of_mem _ hc))
    rw [strLess_cons, digitsValue_cons, digitsValue_cons, ih, hl]
    rw [hl] at bu
    generalize 10 ^ v.length = n at *
    generalize digitsValue u = x at *
    generalize digitsValue v = y at *
    constructor
    · rintro (h1 | ⟨h1, h2⟩)
      · have : (a.toNat - 48 + 1) * n ≤ (b.toNat - 48) * n :=
          Nat.mul_le_mul_right _ (by omega)
        rw [Nat.add_mul] at this
        omega
      · rw [h1]; omega
    · intro h1
      rcases Nat.lt_trichotomy a.toNat b.toNat with h2 | h2 | h2
      · left; exact h2
      · right; refine ⟨h2, ?_⟩
        rw [h2] at h1; omega
      · exfalso
        have : (b.toNat - 48 + 1) * n ≤ (a.toNat - 48) * n :=
          Nat.mul_le_mul_right _ (by omega)
        rw [Nat.add_mul] at this
        omega

/-- The comparison `naturalLess` makes between two digit runs, by stripped length
and then stripped content, is the comparison of the numbers they write. -/
theorem numeric_iff (s t : Str) (hs : ∀ c ∈ s, isDigit c = true)
    (ht : ∀ c ∈ t, isDigit c = true) :
    ((TrimLeft0 s).length < (TrimLeft0 t).length ∨
      ((TrimLeft0 s).length = (TrimLeft0 t).length ∧
        strLess (TrimLeft0 s) (TrimLeft0 t) = true)) ↔ digitsValue s < digitsValue t := by
  have key : ∀ u v : Str, (∀ c ∈ u, isDigit c = true) → (∀ c ∈ v, isDigit c = true) →
      (∀ c, v.head? = some c → c ≠ '0') → u.length < v.length →
      digitsValue u < digitsValue v := by
    intro u v hu hv hv0 hlt
    cases v with
    | nil => simp at hlt
    | cons b v =>
      have h1 := digitsValue_lt u hu
      have h2 := digitsValue_ge b v (hv b (by simp)) (hv0 b rfl)
      have h3 : 10 ^ u.length ≤ 10 ^ v.length :=
        Nat.pow_le_pow_right (by omega) (by simp at hlt; omega)
      omega
  have hs2 := trim_digits s hs
  have ht2 := trim_digits t ht
  rw [← digitsValue_trim s, ← digitsValue_trim t]
  constructor
  · rintro (h | ⟨h1, h2⟩)
    · exact key _ _ hs2 ht2 (trim_head t) h
    · exact (strLess_iff_value _ _ h1 hs2 ht2).1 h2
  · intro h
    rcases Nat.lt_trichotomy (TrimLeft0 s).length (TrimLeft0 t).length with h1 | h1 | h1
    · left; exact h1
    · right; exact ⟨h1, (strLess_iff_value _ _ h1 hs2 ht2).2 h⟩
    · have := key _ _ ht2 hs2 (trim_head s) h1
      omega

/-! ## Lowercasing on ASCII -/

theorem asciiLower_digit (c : Char) (h : isDigit c = true) : asciiLower c = c := by
  have h1 := (isDigit_iff c).1 h
  have : ¬ (65 ≤ c.toNat ∧ c.toNat ≤ 90) := by omega
  simp [asciiLower, this]

theorem asciiLower_nondigit (c : Char) (h : isDigit c = false) :
    isDigit (asciiLower c) = false := by
  by_cases hu : 65 ≤ c.toNat ∧ c.toNat ≤ 90
  · have hc : c = Char.ofNat c.toNat := (Char.ofNat_toNat c).symm
    obtain ⟨h1, h2⟩ := hu
    generalize c.toNat = n at hc h1 h2
    subst hc
    interval_cases n <;> decide
  · simp [asciiLower, hu, h]

/-- Two rune maps that agree on the runes of a string lowercase it alike. -/
theorem ToLower_congr (f g : Char → Char) (s : Str) (h : ∀ c ∈ s, f c = g c) :
    ToLower f s = ToLower g s :=
  List.map_congr_left h

/-- On names whose last path element is ASCII, `naturalLess` needs to know the
lowercasing map on ASCII only. -/
theorem naturalLess_ascii (lower : Char → Char)
    (hl : ∀ c : Char, c.toNat < 128 → lower c = asciiLower c) (a b : Str)
    (ha : ∀ c ∈ Base a, c.toNat < 128) (hb : ∀ c ∈ Base b, c.toNat < 128) :
    naturalLess lower a b = naturalLess asciiLower a b := by
  simp only [naturalLess]
  rw [ToLower_congr lower asciiLower (Base a) (fun c hc => hl c (ha c hc)),
    ToLower_congr lower asciiLower (Base b) (fun c hc => hl c (hb c hc))]

/-! ## filepath.Base is idempotent -/

theorem Base_idem (x : Str) : Base (Base x) = Base x := by
  by_cases hx : x = []
  · subst hx; rfl
  · by_cases hl : ((x.reverse.dropWhile (fun c => c == '/')).takeWhile
        (fun c => c != '/')).reverse = []
    · have : Base x = ['/'] := by simp only [Base, hx, if_false, hl, if_true]
      rw [this]; rfl
    · have hb : Base x = ((x.reverse.dropWhile (fun c => c == '/')).takeWhile
          (fun c => c != '/')).reverse := by
        simp only [Base, hx, if_false, hl]
      rw [hb]
      apply Base_of_no_slash _ hl
      intro c hc
      have := List.mem_takeWhile_imp (List.mem_reverse.1 hc)
      simpa using this

theorem naturalLess_Base (lower : Char → Char) (a b : Str) :
    naturalLess lower (Base a) (Base b) = naturalLess lower a b := by
  simp only [naturalLess, Base_idem]

/-! ## The collected indices -/

theorem mem_collectLoop (lower : Char → Char) (files : List ZipFile) : ∀ (k i : Nat),
    i ∈ collectLoop lower k files ↔
      k ≤ i ∧ ∃ f, files[i - k]? = some f ∧ f.IsDir = false ∧ isImage lower f.Name = true := by
  induction files with
  | nil => intro k i; simp [collectLoop]
  | cons f fs ih =>
    intro k i
    have tail : (k + 1 ≤ i ∧ ∃ g, fs[i - (k + 1)]? = some g ∧ g.IsDir = false ∧
        isImage lower g.Name = true) ↔
        (k < i ∧ ∃ g, (f :: fs)[i - k]? = some g ∧ g.IsDir = false ∧
          isImage lower g.Name = true) := by
      constructor
      · rintro ⟨h1, g, h2, h3⟩
        refine ⟨h1, g, ?_, h3⟩
        have : i - k = (i - (k + 1)) + 1 := by omega
        rw [this, List.getElem?_cons_succ]; exact h2
      · rintro ⟨h1, g, h2, h3⟩
        refine ⟨h1, g, ?_, h3⟩
        have : i - k = (i - (k + 1)) + 1 := by omega
        rw [this, List.getElem?_cons_succ] at h2; exact h2
    have here : ∀ (P : Prop), (f.IsDir = false ∧ isImage lower f.Name = true ↔ P) →
        ((i = k ∧ P) ∨ (k < i ∧ ∃ g, (f :: fs)[i - k]? = some g ∧ g.IsDir = false ∧
          isImage lower g.Name = true) ↔
        (k ≤ i ∧ ∃ g, (f :: fs)[i - k]? = some g ∧ g.IsDir = false ∧
          isImage lower g.Name = true)) := by
      intro P hP
      constructor
      · rintro (⟨e, hp⟩ | ⟨h1, h2⟩)
        · subst e
          exact ⟨le_refl _, f, by simp, hP.2 hp⟩
        · exact ⟨by omega, h2⟩
      · rintro ⟨h1, g, h2, h3⟩
        rcases Nat.eq_or_lt_of_le h1 with e | e
        · left
          subst e
          simp at h2
          subst h2
          exact ⟨rfl, hP.1 h3⟩
        · right; exact ⟨e, g, h2, h3⟩
    simp only [collectLoop]
    by_cases hd : f.IsDir = true
    · rw [if_pos hd, ih (k + 1) i, tail, ← here False (by simp [hd])]
      simp
    · by_cases hi : isImage lower f.Name = true
      · rw [if_neg hd, if_pos hi, List.mem_cons, ih (k + 1) i, tail,
          ← here True (by simp [hd, hi])]
        simp
      · rw [if_neg hd, if_neg hi, ih (k + 1) i, tail, ← here False (by simp [hi])]
        simp

theorem nodup_collectLoop (lower : Char → Char) (files : List ZipFile) :
    ∀ k : Nat, (collectLoop lower k files).Nodup := by
  induction files with
  | nil => intro k; simp [collectLoop]
  | cons f fs ih =>
    intro k
    simp only [collectLoop]
    split_ifs
    · exact ih (k + 1)
    · refine List.nodup_cons.2 ⟨?_, ih (k + 1)⟩
      intro hm
      have := ((mem_collectLoop lower fs (k + 1) k).1 hm).1
      omega
    · exact ih (k + 1)

theorem length_collectLoop (lower : Char → Char) (files : List ZipFile) : ∀ k : Nat,
    (collectLoop lower k files).length =
      (files.filter (fun f => !f.IsDir && isImage lower f.Name)).length := by
  induction files with
  | nil => intro k; simp [collectLoop]
  | cons f fs ih =>
    intro k
    simp only [collectLoop]
    by_cases hd : f.IsDir = true
    · simp [hd, ih (k + 1)]
    · by_cases hi : isImage lower f.Name = true
      · simp [hd, hi, ih (k + 1)]
      · simp [hd, hi, ih (k + 1)]

/-- The indices `OpenArchive` collects are exactly those of the image entries. -/
theorem mem_collect (lower : Char → Char) (files : List ZipFile) (i : Nat) :
    i ∈ collectLoop lower 0 files ↔
      ∃ f, files[i]? = some f ∧ f.IsDir = false ∧ isImage lower f.Name = true := by
  rw [mem_collectLoop]; simp

/-! ## The less function of OpenArchive, and a sorting routine -/

theorem pageLess_strictWeak (lower : Char → Char) (files : List ZipFile) :
    IsStrictWeak (pageLess lower files) := by
  refine ⟨fun x => naturalLess_irrefl _ _, fun x y z => naturalLess_trans _ _ _ _, ?_⟩
  intro x y z h1 h2 h3 h4
  simp only [pageLess] at *
  constructor
  · rw [Bool.eq_false_iff]
    intro h
    rcases naturalLess_negtrans lower _ (nameAt files y) _ h with h5 | h5
    · rw [h1] at h5; exact Bool.noConfusion h5
    · rw [h3] at h5; exact Bool.noConfusion h5
  · rw [Bool.eq_false_iff]
    intro h
    rcases naturalLess_negtrans lower _ (nameAt files y) _ h with h5 | h5
    · rw [h4] at h5; exact Bool.noConfusion h5
    · rw [h2] at h5; exact Bool.noConfusion h5

theorem strictWeak_asymm (less : Nat → Nat → Bool) (h : IsStrictWeak less) (x y : Nat)
    (hxy : less x y = true) : less y x = false := by
  rw [Bool.eq_false_iff]
  intro hyx
  have := h.2.1 x y x hxy hyx
  rw [h.1 x] at this
  exact Bool.noConfusion this

theorem strictWeak_negtrans (less : Nat → Nat → Bool) (h : IsStrictWeak less) (x y z : Nat)
    (hxy : less y x = false) (hyz : less z y = false) : less z x = false := by
  rw [Bool.eq_false_iff]
  intro hzx
  have hyz2 : less y z = false := by
    rw [Bool.eq_false_iff]; intro e
    have := h.2.1 y z x e hzx
    rw [hxy] at this; exact Bool.noConfusion this
  have hxy2 : less x y = false := by
    rw [Bool.eq_false_iff]; intro e
    have := h.2.1 z x y hzx e
    rw [hyz] at this; exact Bool.noConfusion this
  have := (h.2.2 x y z hxy2 hxy hyz2 hyz).2
  rw [hzx] at this; exact Bool.noConfusion this

theorem insertionSort_sorted (less : Nat → Nat → Bool) (h : IsStrictWeak less) (l : List Nat) :
    (l.insertionSort (fun x y => less y x = false)).Pairwise (fun x y => less y x = false) := by
  haveI : IsTotal Nat (fun x y => less y x = false) := ⟨fun x y => by
    by_cases e : less y x = true
    · right; exact strictWeak_asymm less h y x e
    · left; simpa using e⟩
  haveI : IsTrans Nat (fun x y => less y x = false) :=
    ⟨fun x y z hxy hyz => strictWeak_negtrans less h x y z hxy hyz⟩
  exact List.sorted_insertionSort (fun x y => less y x = false) l

theorem stableSort_spec : SortSliceSpec stableSort := fun less l =>
  ⟨List.perm_insertionSort _ l, fun h => insertionSort_sorted less h l⟩

/-! ## The state after OpenArchive -/

theorem OpenArchive_ok (lower : Char → Char) (srt : (Nat → Nat → Bool) → List Nat → List Nat)
    (rd : Str → Except ZipError (List ZipFile)) (a : App) (path : Str) (files : List ZipFile)
    (hrd : rd path = .ok files) :
    OpenArchive lower srt rd a path =
      ({ zr := some files, pageIdx := srt (pageLess lower files) (collectLoop lower 0 files) },
        none) := by
  simp only [OpenArchive, hrd]

theorem mapM_files (files : List ZipFile) : ∀ l : List Nat, (∀ i ∈ l, i < files.length) →
    l.mapM (fun idx => (files[idx]?).map (fun f => Base f.Name)) =
      some (l.map (fun idx => Base (nameAt files idx))) := by
  intro l
  induction l with
  | nil => intro _; rfl
  | cons i l ih =>
    intro h
    have hi : i < files.length := h i (by simp)
    have ih2 := ih (fun j hj => h j (List.mem_cons_of_mem _ hj))
    rw [List.mapM_cons, ih2]
    simp [nameAt, List.getElem?_eq_getElem hi]

theorem lt_of_mem_collect (lower : Char → Char) (files : List ZipFile) (i : Nat)
    (h : i ∈ collectLoop lower 0 files) : i < files.length := by
  obtain ⟨f, hf, _⟩ := (mem_collect lower files i).1 h
  by_contra hn
  rw [List.getElem?_eq_none (by omega)] at hf
  exact Option.noConfusion hf

/-! ## The comparator: order properties -/

theorem compare_equal_iff (lower : Char → Char) (a b : Str) :
    compare lower a b = Cmp.equal ↔
      naturalLess lower a b = false ∧ naturalLess lower b a = false := by
  unfold compare
  split_ifs with h1 h2 <;> simp_all

/-- C1: `naturalLess` is irreflexive and asymmetric. For every string `a`,
`naturalLess(a, a)` is false and `compare(a, a)` is equal; for all `a`, `b`,
`naturalLess(a, b)` and `naturalLess(b, a)` are never both true, and if
`compare(a, b)` is less then `compare(b, a)` is greater. -/
theorem naturalLess_irreflexive_asymmetric (lower : Char → Char) :
    (∀ a, naturalLess lower a a = false ∧ compare lower a a = Cmp.equal) ∧
    (∀ a b, ¬ (naturalLess lower a b = true ∧ naturalLess lower b a = true)) ∧
    (∀ a b, compare lower a b = Cmp.less → compare lower b a = Cmp.greater) := by
  refine ⟨fun a => ⟨naturalLess_irrefl lower a, ?_⟩, ?_, ?_⟩
  · rw [compare_equal_iff]
    exact ⟨naturalLess_irrefl lower a, naturalLess_irrefl lower a⟩
  · rintro a b ⟨h1, h2⟩
    rw [naturalLess_asymm lower a b h1] at h2
    exact Bool.noConfusion h2
  · intro a b h
    have h1 : naturalLess lower a b = true := by
      unfold compare at h
      split_ifs at h with e1 e2
      exact e1
    have h2 := naturalLess_asymm lower a b h1
    simp [compare, h1, h2]

/-- C1 at `page2.png` and `page10.png`: the first is less, so the second is
greater. -/
theorem naturalLess_irreflexive_asymmetric_witness :
    compare asciiLower "page2.png".toList "page10.png".toList = Cmp.less ∧
    compare asciiLower "page10.png".toList "page2.png".toList = Cmp.greater :=
  ⟨by decide, (naturalLess_irreflexive_asymmetric asciiLower).2.2 _ _ (by decide)⟩

/-- C2: `naturalLess` is transitive in the strict-weak-order sense. For all
strings `a`, `b`, `c`, misaligned digit and non-digit chunks included: if
`naturalLess(a, b)` and `naturalLess(b, c)` then `naturalLess(a, c)`; and if `a`,
`b` compare equal and `b`, `c` compare equal, then `a`, `c` compare equal. -/
theorem naturalLess_transitive (lower : Char → Char) (a b c : Str) :
    (naturalLess lower a b = true → naturalLess lower b c = true →
      naturalLess lower a c = true) ∧
    (compare lower a b = Cmp.equal → compare lower b c = Cmp.equal →
      compare lower a c = Cmp.equal) := by
  refine ⟨naturalLess_trans lower a b c, ?_⟩
  simp only [compare_equal_iff]
  rintro ⟨h1, h2⟩ ⟨h3, h4⟩
  constructor
  · rw [Bool.eq_false_iff]
    intro h
    rcases naturalLess_negtrans lower a b c h with h5 | h5
    · rw [h1] at h5; exact Bool.noConfusion h5
    · rw [h3] at h5; exact Bool.noConfusion h5
  · rw [Bool.eq_false_iff]
    intro h
    rcases naturalLess_negtrans lower c b a h with h5 | h5
    · rw [h4] at h5; exact Bool.noConfusion h5
    · rw [h2] at h5; exact Bool.noConfusion h5

/-- C2 at the misaligned names `1a`, `a1`, `a2`, and at the tied names
`img01.jpg`, `img1.jpg`, `IMG001.JPG`. -/
theorem naturalLess_transitive_witness :
    naturalLess asciiLower "1a".toList "a2".toList = true ∧
    compare asciiLower "img01.jpg".toList "IMG001.JPG".toList = Cmp.equal :=
  ⟨(naturalLess_transitive asciiLower "1a".toList "a1".toList "a2".toList).1
      (by decide) (by decide),
    (naturalLess_transitive asciiLower "img01.jpg".toList "img1.jpg".toList
      "IMG001.JPG".toList).2 (by decide) (by decide)⟩

/-! ## The comparator: digit runs -/

theorem not_slash_of_digit (c : Char) (h : isDigit c = true) : c ≠ '/' := by
  intro e
  subst e
  exact absurd h (by decide)

/-- The chunks of a lowercased name of the shape prefix, digit run, suffix. -/
theorem numChunk_framed (lower : Char → Char)
    (hl1 : ∀ c, isDigit c = true → lower c = c)
    (hl2 : ∀ c, isDigit c = false → isDigit (lower c) = false)
    (p q s : Str)
    (hp : ∀ c ∈ p, c ≠ '/') (hq : ∀ c ∈ q, c ≠ '/')
    (hpe : ∀ c, p.getLast? = some c → isDigit c = false)
    (hqs : ∀ c, q.head? = some c → isDigit c = false)
    (hs : s ≠ []) (hsd : ∀ c ∈ s, isDigit c = true) :
    numChunk (ToLower lower (Base (p ++ s ++ q))) =
      numChunk (ToLower lower p) ++ s :: numChunk (ToLower lower q) := by
  have hb : Base (p ++ s ++ q) = p ++ s ++ q := by
    apply Base_of_no_slash
    · simp [hs]
    · intro c hc
      simp only [List.mem_append] at hc
      rcases hc with (hc | hc) | hc
      · exact hp c hc
      · exact not_slash_of_digit c (hsd c hc)
      · exact hq c hc
  have hsl : ToLower lower s = s := by
    unfold ToLower
    conv_rhs => rw [← List.map_id s]
    exact List.map_congr_left (fun c hc => hl1 c (hsd c hc))
  have hmap : ToLower lower (p ++ s ++ q) = ToLower lower p ++ (s ++ ToLower lower q) := by
    have : ToLower lower (p ++ s ++ q) =
        ToLower lower p ++ (ToLower lower s ++ ToLower lower q) := by
      simp [ToLower]
    rw [this, hsl]
  have hQ : ∀ c, (ToLower lower q).head? = some c → isDigit c = false := by
    intro c hc
    simp only [ToLower, List.head?_map, Option.map_eq_some'] at hc
    obtain ⟨d, hd, rfl⟩ := hc
    exact hl2 d (hqs d hd)
  rw [hb, hmap, numChunk_append, numChunk_run s hs hsd _ hQ]
  intro c d hc hd
  simp only [ToLower, List.getLast?_map, Option.map_eq_some'] at hc
  obtain ⟨e, he, rfl⟩ := hc
  have h1 := hl2 e (hpe e he)
  cases s with
  | nil => exact absurd rfl hs
  | cons x xs =>
    simp only [List.cons_append, List.head?_cons, Option.some.injEq] at hd
    subst hd
    rw [h1, hsd x (by simp)]
    exact Bool.noConfusion

/-- C3: digit runs are ordered by numeric magnitude, ignoring leading zeros. For
every prefix `p` and suffix `q` without path separator, `p` not ending in a digit
and `q` not starting with one, and all non-empty strings of ASCII digits `s` and
`t`, `naturalLess(p+s+q, p+t+q)` holds exactly when the number written by `s` is
strictly smaller than the number written by `t`. The lowercasing map is any map
that leaves digits alone and makes no digit out of a non-digit, as
`unicode.ToLower` does. -/
theorem naturalLess_digit_runs (lower : Char → Char)
    (hl1 : ∀ c, isDigit c = true → lower c = c)
    (hl2 : ∀ c, isDigit c = false → isDigit (lower c) = false)
    (p q s t : Str)
    (hp : ∀ c ∈ p, c ≠ '/') (hq : ∀ c ∈ q, c ≠ '/')
    (hpe : ∀ c, p.getLast? = some c → isDigit c = false)
    (hqs : ∀ c, q.head? = some c → isDigit c = false)
    (hs : s ≠ []) (ht : t ≠ [])
    (hsd : ∀ c ∈ s, isDigit c = true) (htd : ∀ c ∈ t, isDigit c = true) :
    naturalLess lower (p ++ s ++ q) (p ++ t ++ q) = true ↔ digitsValue s < digitsValue t := by
  have hs0 : startsWithDigit s = true := by
    cases s with
    | nil => exact absurd rfl hs
    | cons x xs => exact hsd x (by simp)
  have ht0 : startsWithDigit t = true := by
    cases t with
    | nil => exact absurd rfl ht
    | cons x xs => exact htd x (by simp)
  simp only [naturalLess]
  rw [numChunk_framed lower hl1 hl2 p q s hp hq hpe hqs hs hsd,
    numChunk_framed lower hl1 hl2 p q t hp hq hpe hqs ht htd,
    lessChunks_eq_lex, lexLess_append_left _ chunkLess_irrefl]
  simp only [lexLess, lexLess_irrefl _ chunkLess_irrefl]
  rw [← numeric_iff s t hsd htd, ← chunkLess_digits s t hs0 ht0]
  by_cases h : chunkLess s t = true
  · simp [h]
  · simp [h]

/-- C3 at `page2.png` and `page10.png`: 2 is smaller than 10, so `page2.png`
sorts first; besides, `page1.png` sorts before `page2.png`, and `img01.jpg` and
`img1.jpg`, like `page0` and `page00`, compare equal in both directions. -/
theorem naturalLess_digit_runs_witness :
    (digitsValue "2".toList < digitsValue "10".toList ∧
      naturalLess asciiLower "page2.png".toList "page10.png".toList = true) ∧
    naturalLess asciiLower "page1.png".toList "page2.png".toList = true ∧
    naturalLess asciiLower "img01.jpg".toList "img1.jpg".toList = false ∧
    naturalLess asciiLower "img1.jpg".toList "img01.jpg".toList = false ∧
    naturalLess asciiLower "page0".toList "page00".toList = false ∧
    naturalLess asciiLower "page00".toList "page0".toList = false :=
  ⟨⟨by decide,
    (naturalLess_digit_runs asciiLower asciiLower_digit asciiLower_nondigit
      "page".toList ".png".toList "2".toList "10".toList
      (by decide) (by decide)
      (by intro c h; simp at h; subst h; decide)
      (by intro c h; simp at h; subst h; decide)
      (by decide) (by decide) (by decide) (by decide)).2 (by decide)⟩,
    by decide, by decide, by decide, by decide, by decide⟩

/-- C7: the result of the comparator depends only on the lowercased final path
segment of each argument: names with the same `ToLower(Base(.))` are compared
alike, so letter case and directory components never change the order; and with a
lowercasing map that is the usual one on ASCII, `a.png` sorts before `B.png` and
`B.png` does not sort before `a.png`. -/
theorem naturalLess_lowered_base (lower : Char → Char) :
    (∀ a a2 b b2 : Str, ToLower lower (Base a) = ToLower lower (Base a2) →
      ToLower lower (Base b) = ToLower lower (Base b2) →
      naturalLess lower a b = naturalLess lower a2 b2) ∧
    ((∀ c : Char, c.toNat < 128 → lower c = asciiLower c) →
      naturalLess lower "a.png".toList "B.png".toList = true ∧
      naturalLess lower "B.png".toList "a.png".toList = false) := by
  constructor
  · intro a a2 b b2 ha hb
    simp only [naturalLess, ha, hb]
  · intro hl
    rw [naturalLess_ascii lower hl _ _ (by decide) (by decide),
      naturalLess_ascii lower hl _ _ (by decide) (by decide)]
    exact ⟨by decide, by decide⟩

/-- C7 at `comics/vol1/Page2.PNG` and `page10.png` against `page2.png` and
`other/PAGE10.png`, and at `a.png`, `B.png`. -/
theorem naturalLess_lowered_base_witness :
    naturalLess asciiLower "comics/vol1/Page2.PNG".toList "page10.png".toList =
      naturalLess asciiLower "page2.png".toList "other/PAGE10.png".toList ∧
    naturalLess asciiLower "a.png".toList "B.png".toList = true ∧
    naturalLess asciiLower "B.png".toList "a.png".toList = false :=
  ⟨(naturalLess_lowered_base asciiLower).1 _ _ _ _ (by decide) (by decide),
    (naturalLess_lowered_base asciiLower).2 (fun _ _ => rfl)⟩

/-! ## The page index -/

theorem pairwise_lookup {R : Nat → Nat → Prop} {l : List Nat} (h : l.Pairwise R)
    (i j x y : Nat) (hij : i < j) (hx : l[i]? = some x) (hy : l[j]? = some y) : R x y := by
  rw [List.pairwise_iff_getElem] at h
  obtain ⟨hi, rfl⟩ := List.getElem?_eq_some.1 hx
  obtain ⟨hj, rfl⟩ := List.getElem?_eq_some.1 hy
  exact h i j hi hj hij

theorem isImage_iff (lower : Char → Char) (name : Str) :
    isImage lower name = true ↔ ToLower lower (Ext name) ∈ imageExts := by
  simp [isImage, imageExts]

theorem sorted_in_range (lower : Char → Char)
    (srt : (Nat → Nat → Bool) → List Nat → List Nat) (hs : SortSliceSpec srt)
    (files : List ZipFile) :
    ∀ i ∈ srt (pageLess lower files) (collectLoop lower 0 files), i < files.length :=
  fun i hi => lt_of_mem_collect lower files i (((hs _ _).1.mem_iff).1 hi)

theorem ListPages_opened (lower : Char → Char)
    (srt : (Nat → Nat → Bool) → List Nat → List Nat) (hs : SortSliceSpec srt)
    (files : List ZipFile) :
    ListPages { zr := some files,
                pageIdx := srt (pageLess lower files) (collectLoop lower 0 files) } =
      some ((srt (pageLess lower files) (collectLoop lower 0 files)).map
        (fun idx => Base (nameAt files idx))) := by
  simp only [ListPages]
  exact mapM_files files _ (sorted_in_range lower srt hs files)

/-- C4: after a successful `OpenArchive` the page index is in comparator order:
for every two positions `i < j` of `pageIdx`, the name of entry `pageIdx[j]` is
not `naturalLess` than the name of entry `pageIdx[i]`; and the same holds between
the names `ListPages` returns. `sort.Slice` enters through what it guarantees. -/
theorem pageIdx_in_comparator_order (lower : Char → Char)
    (srt : (Nat → Nat → Bool) → List Nat → List Nat)
    (rd : Str → Except ZipError (List ZipFile)) (a : App) (path : Str) (files : List ZipFile)
    (hs : SortSliceSpec srt) (hrd : rd path = .ok files) :
    (∀ i j x y : Nat, i < j →
      (OpenArchive lower srt rd a path).1.pageIdx[i]? = some x →
      (OpenArchive lower srt rd a path).1.pageIdx[j]? = some y →
      naturalLess lower (nameAt files y) (nameAt files x) = false) ∧
    (∃ pages, ListPages (OpenArchive lower srt rd a path).1 = some pages ∧
      ∀ (i j : Nat) (p q : Str), i < j → pages[i]? = some p → pages[j]? = some q →
        naturalLess lower q p = false) := by
  rw [OpenArchive_ok lower srt rd a path files hrd]
  have hsorted := (hs (pageLess lower files) (collectLoop lower 0 files)).2
    (pageLess_strictWeak lower files)
  have first : ∀ i j x y : Nat, i < j →
      (srt (pageLess lower files) (collectLoop lower 0 files))[i]? = some x →
      (srt (pageLess lower files) (collectLoop lower 0 files))[j]? = some y →
      naturalLess lower (nameAt files y) (nameAt files x) = false :=
    fun i j x y hij hx hy => pairwise_lookup hsorted i j x y hij hx hy
  refine ⟨first, _, ListPages_opened lower srt hs files, ?_⟩
  intro i j p q hij hp hq
  simp only [List.getElem?_map, Option.map_eq_some'] at hp hq
  obtain ⟨x, hx, rfl⟩ := hp
  obtain ⟨y, hy, rfl⟩ := hq
  rw [naturalLess_Base]
  exact first i j x y hij hx hy

/-- C4 on an archive holding `page2.png`, `page10.png`, `page1.png`, sorted by
insertion: the pages come out as `page1.png`, `page2.png`, `page10.png`. -/
theorem pageIdx_in_comparator_order_witness :
    ListPages (OpenArchive asciiLower stableSort
        (fun _ => .ok [fileEntry "page2.png", fileEntry "page10.png", fileEntry "page1.png"])
        NewApp []).1 =
      some ["page1.png".toList, "page2.png".toList, "page10.png".toList] ∧
    naturalLess asciiLower "page10.png".toList "page1.png".toList = false :=
  ⟨by decide,
    (pageIdx_in_comparator_order asciiLower stableSort
      (fun _ => .ok [fileEntry "page2.png", fileEntry "page10.png", fileEntry "page1.png"])
      NewApp [] _ stableSort_spec rfl).1 0 2 2 1 (by decide) (by decide) (by decide)⟩

/-- C5: after a successful `OpenArchive` the page index holds exactly the image
entries: no error is returned; `pageIdx` has no repetition; an index `i` occurs in
it exactly when entry `i` exists, is not a directory and has a lowercased
extension among `.jpg`, `.jpeg`, `.png`, `.gif`, `.webp`, `.bmp`; `ListPages`
returns as many names as there are such entries; and an archive without such an
entry gives the empty list. -/
theorem pageIdx_holds_exactly_images (lower : Char → Char)
    (srt : (Nat → Nat → Bool) → List Nat → List Nat)
    (rd : Str → Except ZipError (List ZipFile)) (a : App) (path : Str) (files : List ZipFile)
    (hs : SortSliceSpec srt) (hrd : rd path = .ok files) :
    (OpenArchive lower srt rd a path).2 = none ∧
    (OpenArchive lower srt rd a path).1.pageIdx.Nodup ∧
    (∀ i : Nat, i ∈ (OpenArchive lower srt rd a path).1.pageIdx ↔
      ∃ f, files[i]? = some f ∧ f.IsDir = false ∧ ToLower lower (Ext f.Name) ∈ imageExts) ∧
    (∃ pages, ListPages (OpenArchive lower srt rd a path).1 = some pages ∧
      pages.length = (files.filter (fun f =>
        !f.IsDir && decide (ToLower lower (Ext f.Name) ∈ imageExts))).length) ∧
    ((∀ f ∈ files, f.IsDir = true ∨ ToLower lower (Ext f.Name) ∉ imageExts) →
      ListPages (OpenArchive lower srt rd a path).1 = some []) := by
  rw [OpenArchive_ok lower srt rd a path files hrd]
  have hperm := (hs (pageLess lower files) (collectLoop lower 0 files)).1
  have hlen : (srt (pageLess lower files) (collectLoop lower 0 files)).length =
      (files.filter (fun f =>
        !f.IsDir && decide (ToLower lower (Ext f.Name) ∈ imageExts))).length := by
    rw [hperm.length_eq, length_collectLoop]
    congr 1
    apply List.filter_congr
    intro f _
    by_cases h : isImage lower f.Name = true
    · simp [h, (isImage_iff lower f.Name).1 h]
    · have h2 : ¬ ToLower lower (Ext f.Name) ∈ imageExts := fun e =>
        h ((isImage_iff lower f.Name).2 e)
      simp [h, h2]
  refine ⟨rfl, (hperm.nodup_iff).2 (nodup_collectLoop lower files 0), ?_, ?_, ?_⟩
  · intro i
    show i ∈ srt (pageLess lower files) (collectLoop lower 0 files) ↔ _
    rw [hperm.mem_iff, mem_collect]
    simp only [isImage_iff]
  · exact ⟨_, ListPages_opened lower srt hs files, by rw [List.length_map]; exact hlen⟩
  · intro hnone
    rw [ListPages_opened lower srt hs files]
    have h0 : (files.filter (fun f =>
        !f.IsDir && decide (ToLower lower (Ext f.Name) ∈ imageExts))) = [] := by
      rw [List.filter_eq_nil_iff]
      intro f hf
      rcases hnone f hf with h | h
      · simp [h]
      · simp [h]
    rw [h0] at hlen
    rw [List.length_eq_zero.1 hlen]
    rfl

/-- C5 on an archive holding `page2.png`, `notes.txt`, the directory `cover/` and
`Page1.JPEG`: only the indices 0 and 3 are pages, and `notes.txt` and `cover/` are
not listed. -/
theorem pageIdx_holds_exactly_images_witness :
    ((1 ∈ (OpenArchive asciiLower stableSort
        (fun _ => .ok [fileEntry "page2.png", fileEntry "notes.txt", dirEntry "cover/",
          fileEntry "Page1.JPEG"]) NewApp []).1.pageIdx) ↔
      ∃ f, [fileEntry "page2.png", fileEntry "notes.txt", dirEntry "cover/",
          fileEntry "Page1.JPEG"][1]? = some f ∧ f.IsDir = false ∧
        ToLower asciiLower (Ext f.Name) ∈ imageExts) ∧
    ListPages (OpenArchive asciiLower stableSort
        (fun _ => .ok [fileEntry "page2.png", fileEntry "notes.txt", dirEntry "cover/",
          fileEntry "Page1.JPEG"]) NewApp []).1 =
      some ["Page1.JPEG".toList, "page2.png".toList] :=
  ⟨(pageIdx_holds_exactly_images asciiLower stableSort
      (fun _ => .ok [fileEntry "page2.png", fileEntry "notes.txt", dirEntry "cover/",
        fileEntry "Page1.JPEG"]) NewApp [] _ stableSort_spec rfl).2.2.1 1,
    by decide⟩

/-! ## GetPageDataURL -/

theorem GetPageDataURL_rejects (lower : Char → Char) (enc : List Nat → Str) (a : App)
    (index : Int) (h : a.zr = none ∨ index < 0 ∨ index ≥ (a.pageIdx.length : Int)) :
    GetPageDataURL lower enc a index = some ([], some Error.invalidPageIndex) := by
  have h2 : a.zr.isNone = true ∨ index < 0 ∨ index ≥ (a.pageIdx.length : Int) := by
    rcases h with h | h
    · left; rw [h]; rfl
    · right; exact h
  simp only [GetPageDataURL]
  rw [if_pos h2]

theorem GetPageDataURL_passes (lower : Char → Char) (enc : List Nat → Str) (a : App)
    (index : Int) (h : ¬ (a.zr = none ∨ index < 0 ∨ index ≥ (a.pageIdx.length : Int)))
    (s : Str) : GetPageDataURL lower enc a index ≠ some (s, some Error.invalidPageIndex) := by
  have h2 : ¬ (a.zr.isNone = true ∨ index < 0 ∨ index ≥ (a.pageIdx.length : Int)) := by
    intro e
    apply h
    rcases e with e | e
    · left; exact Option.isNone_iff_eq_none.1 e
    · right; exact e
  simp only [GetPageDataURL]
  rw [if_neg h2]
  split
  · exact fun e => Option.noConfusion e
  · split
    · intro e
      simp at e
    · intro e
      simp at e

theorem GetPageDataURL_read (lower : Char → Char) (enc : List Nat → Str)
    (files : List ZipFile) (idxs : List Nat) (k i : Nat) (f : ZipFile) (b : List Nat)
    (hk : idxs[k]? = some i) (hf : files[i]? = some f) (hb : f.Data = .ok b) :
    GetPageDataURL lower enc { zr := some files, pageIdx := idxs } (k : Int) =
      some ("data:".toList ++ (mimeFromName lower f.Name).toList ++ ";base64,".toList ++ enc b,
        none) := by
  obtain ⟨hlt, _⟩ := List.getElem?_eq_some.1 hk
  have h2 : ¬ ((some files).isNone = true ∨ (k : Int) < 0 ∨ (k : Int) ≥ (idxs.length : Int)) := by
    rintro (e | e | e)
    · exact Bool.noConfusion e
    · omega
    · omega
  simp only [GetPageDataURL]
  rw [if_neg h2]
  simp only [Option.bind, Int.toNat_ofNat, hk, hf, hb]

/-- C6: `GetPageDataURL` rejects exactly the out-of-range indices. In every state
and for every integer index it returns the empty string with the error
`invalid page index` if and only if no archive is open or the index is negative or
at least `len(pageIdx)`, and in no other case does it return that error; the
indices `-1` and `len(pageIdx)` both fail; and after a successful `OpenArchive`
that found a page, index 0 passes the check and the data URL of the first page is
returned whenever its bytes can be read. -/
theorem GetPageDataURL_rejects_exactly_out_of_range (lower : Char → Char)
    (enc : List Nat → Str) (a : App) (index : Int) :
    (GetPageDataURL lower enc a index = some ([], some Error.invalidPageIndex) ↔
      (a.zr = none ∨ index < 0 ∨ index ≥ (a.pageIdx.length : Int))) ∧
    (∀ s, GetPageDataURL lower enc a index = some (s, some Error.invalidPageIndex) →
      s = [] ∧ (a.zr = none ∨ index < 0 ∨ index ≥ (a.pageIdx.length : Int))) ∧
    GetPageDataURL lower enc a (-1) = some ([], some Error.invalidPageIndex) ∧
    GetPageDataURL lower enc a (a.pageIdx.length : Int) =
      some ([], some Error.invalidPageIndex) ∧
    (∀ (srt : (Nat → Nat → Bool) → List Nat → List Nat)
      (rd : Str → Except ZipError (List ZipFile)) (a0 : App) (path : Str)
      (files : List ZipFile),
      SortSliceSpec srt → rd path = .ok files →
      (OpenArchive lower srt rd a0 path).1.pageIdx ≠ [] →
      ∃ i f, (OpenArchive lower srt rd a0 path).1.pageIdx[0]? = some i ∧
        files[i]? = some f ∧
        ∀ b, f.Data = .ok b →
          GetPageDataURL lower enc (OpenArchive lower srt rd a0 path).1 0 =
            some ("data:".toList ++ (mimeFromName lower f.Name).toList ++
              ";base64,".toList ++ enc b, none)) := by
  have strong : ∀ s, GetPageDataURL lower enc a index = some (s, some Error.invalidPageIndex) →
      s = [] ∧ (a.zr = none ∨ index < 0 ∨ index ≥ (a.pageIdx.length : Int)) := by
    intro s hs
    by_cases h : a.zr = none ∨ index < 0 ∨ index ≥ (a.pageIdx.length : Int)
    · rw [GetPageDataURL_rejects lower enc a index h] at hs
      simp at hs
      exact ⟨hs, h⟩
    · exact absurd hs (GetPageDataURL_passes lower enc a index h s)
  refine ⟨⟨fun h => (strong [] h).2, GetPageDataURL_rejects lower enc a index⟩, strong,
    GetPageDataURL_rejects lower enc a (-1) (Or.inr (Or.inl (by omega))),
    GetPageDataURL_rejects lower enc a _ (Or.inr (Or.inr (by omega))), ?_⟩
  intro srt rd a0 path files hs hrd hne
  rw [OpenArchive_ok lower srt rd a0 path files hrd] at hne ⊢
  simp only at hne ⊢
  cases hl : srt (pageLess lower files) (collectLoop lower 0 files) with
  | nil => exact absurd hl hne
  | cons i rest =>
    have hi : i < files.length :=
      sorted_in_range lower srt hs files i (by rw [hl]; simp)
    refine ⟨i, files[i], by simp, List.getElem?_eq_getElem hi, ?_⟩
    intro b hb
    exact GetPageDataURL_read lower enc files (i :: rest) 0 i _ b (by simp)
      (List.getElem?_eq_getElem hi) hb

/-- C6 on an archive with the single page `page1.png`: index 0 yields the data URL
of a PNG, index 1 is rejected, and only because it is out of range. -/
theorem GetPageDataURL_rejects_exactly_out_of_range_witness :
    (GetPageDataURL asciiLower (fun _ => [])
        (OpenArchive asciiLower stableSort (fun _ => .ok [fileEntry "page1.png"])
          NewApp []).1 0 = some ("data:image/png;base64,".toList, none)) ∧
    ((OpenArchive asciiLower stableSort (fun _ => .ok [fileEntry "page1.png"])
          NewApp []).1.zr = none ∨ (1 : Int) < 0 ∨
      (1 : Int) ≥ ((OpenArchive asciiLower stableSort (fun _ => .ok [fileEntry "page1.png"])
          NewApp []).1.pageIdx.length : Int)) :=
  ⟨by decide,
    ((GetPageDataURL_rejects_exactly_out_of_range asciiLower (fun _ => [])
      (OpenArchive asciiLower stableSort (fun _ => .ok [fileEntry "page1.png"])
          NewApp []).1 1).2.1 [] (by decide)).2⟩

/-! ## Media types -/

theorem mime_of_image (lower : Char → Char) (name : Str) :
    (isImage lower name = true ↔ mimeFromName lower name ∈ imageMimes) ∧
    (isImage lower name = true ↔ mimeFromName lower name ≠ "application/octet-stream") := by
  simp only [isImage, mimeFromName, imageMimes]
  generalize ToLower lower (Ext name) = ext
  by_cases h1 : ext = ['.', 'j', 'p', 'g']
  · subst h1; decide
  by_cases h2 : ext = ['.', 'j', 'p', 'e', 'g']
  · subst h2; decide
  by_cases h3 : ext = ['.', 'p', 'n', 'g']
  · subst h3; decide
  by_cases h4 : ext = ['.', 'g', 'i', 'f']
  · subst h4; decide
  by_cases h5 : ext = ['.', 'w', 'e', 'b', 'p']
  · subst h5; decide
  by_cases h6 : ext = ['.', 'b', 'm', 'p']
  · subst h6; decide
  simp only [h1, h2, h3, h4, h5, h6, or_self, if_false]
  decide

/-- C9: the fallback media type is unreachable through pagination. For every name,
`isImage(name)` is true if and only if `mimeFromName(name)` is one of
`image/jpeg`, `image/png`, `image/gif`, `image/webp`, `image/bmp`, that is, differs
from `application/octet-stream`; so after a successful `OpenArchive` every entry
of the page index has an image media type, and the data URL `GetPageDataURL`
builds for a page whose bytes can be read carries that type. -/
theorem fallback_mime_unreachable (lower : Char → Char) (enc : List Nat → Str) :
    (∀ name, (isImage lower name = true ↔ mimeFromName lower name ∈ imageMimes) ∧
      (isImage lower name = true ↔ mimeFromName lower name ≠ "application/octet-stream")) ∧
    (∀ (srt : (Nat → Nat → Bool) → List Nat → List Nat)
      (rd : Str → Except ZipError (List ZipFile)) (a : App) (path : Str)
      (files : List ZipFile),
      SortSliceSpec srt → rd path = .ok files →
      ∀ (k i : Nat), (OpenArchive lower srt rd a path).1.pageIdx[k]? = some i →
        ∃ f, files[i]? = some f ∧ mimeFromName lower f.Name ∈ imageMimes ∧
          mimeFromName lower f.Name ≠ "application/octet-stream" ∧
          ∀ b, f.Data = .ok b →
            GetPageDataURL lower enc (OpenArchive lower srt rd a path).1 (k : Int) =
              some ("data:".toList ++ (mimeFromName lower f.Name).toList ++
                ";base64,".toList ++ enc b, none)) := by
  refine ⟨mime_of_image lower, ?_⟩
  intro srt rd a path files hs hrd k i
  rw [OpenArchive_ok lower srt rd a path files hrd]
  intro hk
  have hmem : i ∈ srt (pageLess lower files) (collectLoop lower 0 files) :=
    List.getElem?_mem hk
  have hcol := ((hs _ _).1.mem_iff).1 hmem
  obtain ⟨f, hf, _, himg⟩ := (mem_collect lower files i).1 hcol
  refine ⟨f, hf, (mime_of_image lower f.Name).1.1 himg, (mime_of_image lower f.Name).2.1 himg, ?_⟩
  intro b hb
  exact GetPageDataURL_read lower enc files _ k i f b hk hf hb

/-- C9 on an archive holding `notes.txt` and `Cover.JPG`: the only page is the
JPEG, served as `image/jpeg`. -/
theorem fallback_mime_unreachable_witness :
    mimeFromName asciiLower "notes.txt".toList = "application/octet-stream" ∧
    ∃ f, [fileEntry "notes.txt", fileEntry "Cover.JPG"][1]? = some f ∧
      mimeFromName asciiLower f.Name ∈ imageMimes ∧
      mimeFromName asciiLower f.Name ≠ "application/octet-stream" ∧
      ∀ b, f.Data = .ok b →
        GetPageDataURL asciiLower (fun _ => [])
          (OpenArchive asciiLower stableSort
            (fun _ => .ok [fileEntry "notes.txt", fileEntry "Cover.JPG"]) NewApp []).1
            ((0 : Nat) : Int) =
          some ("data:".toList ++ (mimeFromName asciiLower f.Name).toList ++
            ";base64,".toList ++ (fun _ => []) b, none) :=
  ⟨by decide,
    (fallback_mime_unreachable asciiLower (fun _ => [])).2 stableSort
      (fun _ => .ok [fileEntry "notes.txt", fileEntry "Cover.JPG"]) NewApp [] _
      stableSort_spec rfl 0 1 (by decide)⟩

/-! ## The desktop viewer -/

/-- A slice of strings has one sorted rearrangement only, so `sortStrings` is what
any correct `sort.Strings` returns. -/
theorem sortStrings_unique (l r : List Str) (hp : r.Perm l)
    (hr : r.Pairwise (fun a b => strLess b a = false)) : r = sortStrings l := by
  haveI : IsAntisymm Str (fun a b => strLess b a = false) := ⟨fun a b h1 h2 => by
    by_contra hne
    rcases strLess_total a b hne with h | h
    · rw [h2] at h; exact Bool.noConfusion h
    · rw [h1] at h; exact Bool.noConfusion h⟩
  haveI : IsTotal Str (fun a b => strLess b a = false) := ⟨fun a b => by
    by_cases e : strLess b a = true
    · right; exact strLess_asymm b a e
    · left; simpa using e⟩
  haveI : IsTrans Str (fun a b => strLess b a = false) := ⟨fun a b c h1 h2 => by
    rw [Bool.eq_false_iff]
    intro h
    by_cases e : a = b
    · subst e; rw [h2] at h; exact Bool.noConfusion h
    · rcases strLess_total a b e with h3 | h3
      · have := strLess_trans c a b h h3
        rw [h2] at this; exact Bool.noConfusion this
      · rw [h1] at h3; exact Bool.noConfusion h3⟩
  exact List.eq_of_perm_of_sorted
    (hp.trans (List.perm_insertionSort (fun a b => strLess b a = false) l).symm) hr
    (List.sorted_insertionSort (fun a b => strLess b a = false) l)

theorem imageNames_ascii (lower : Char → Char)
    (hl : ∀ c : Char, c.toNat < 128 → lower c = asciiLower c) (files : List ZipFile)
    (hf : ∀ f ∈ files, ∀ c ∈ Ext f.Name, c.toNat < 128) :
    imageNames lower files = imageNames asciiLower files := by
  induction files with
  | nil => rfl
  | cons f fs ih =>
    have h1 : ToLower lower (Ext f.Name) = ToLower asciiLower (Ext f.Name) :=
      ToLower_congr lower asciiLower _ (fun c hc => hl c (hf f (by simp) c hc))
    have h2 := ih (fun g hg => hf g (List.mem_cons_of_mem _ hg))
    simp only [imageNames, h1, h2]

/-- What `loadImageList` leaves for the archive `page1.png`, `page2.png`,
`page10.png`, with any lowercasing map that is the usual one on ASCII. -/
theorem loadImageList_pages (lower : Char → Char)
    (hl : ∀ c : Char, c.toNat < 128 → lower c = asciiLower c) :
    loadImageList lower
        [fileEntry "page1.png", fileEntry "page2.png", fileEntry "page10.png"] =
      ["page1.png".toList, "page10.png".toList, "page2.png".toList] ∧
    naturalLess lower "page2.png".toList "page10.png".toList = true := by
  constructor
  · simp only [loadImageList]
    rw [imageNames_ascii lower hl _ (by decide)]
    decide
  · rw [naturalLess_ascii lower hl _ _ (by decide) (by decide)]
    decide

/-- C10, the code at the failing input: for the archive `page1.png`, `page2.png`,
`page10.png`, `loadImageList` leaves `page1.png`, `page10.png`, `page2.png` in
`imageFiles`, although `page2.png` sorts strictly before `page10.png` under the
natural-order comparator: the list is in string order, not in natural order. -/
theorem loadImageList_orders_as_strings :
    loadImageList asciiLower
        [fileEntry "page1.png", fileEntry "page2.png", fileEntry "page10.png"] =
      ["page1.png".toList, "page10.png".toList, "page2.png".toList] ∧
    naturalLess asciiLower "page2.png".toList "page10.png".toList = true :=
  loadImageList_pages asciiLower (fun _ _ => rfl)

/-! ## sort.Slice on short slices is a stable insertion sort -/

theorem getD_append_mid (p q : List Nat) (y x : Nat) :
    (p ++ y :: x :: q).getD p.length 0 = y ∧ (p ++ y :: x :: q).getD (p.length + 1) 0 = x := by
  induction p with
  | nil => exact ⟨rfl, rfl⟩
  | cons h t ih => simpa using ih

theorem swapAt_mid (p q : List Nat) (y x : Nat) :
    swapAt (p ++ y :: x :: q) (p.length + 1) p.length = p ++ x :: y :: q := by
  unfold swapAt
  rw [(getD_append_mid p q y x).1, (getD_append_mid p q y x).2]
  induction p with
  | nil => rfl
  | cons h t ih => simp [ih]

theorem length_sinkList (less : Nat → Nat → Bool) (x : Nat) :
    ∀ r : List Nat, (sinkList less x r).length = r.length + 1
  | [] => rfl
  | y :: r => by
    simp only [sinkList]
    split_ifs
    · simp [length_sinkList less x r]
    · simp

theorem mem_sinkList (less : Nat → Nat → Bool) (x b : Nat) :
    ∀ r : List Nat, b ∈ sinkList less x r ↔ b = x ∨ b ∈ r
  | [] => by simp [sinkList]
  | y :: r => by
    simp only [sinkList]
    split_ifs
    · simp only [List.mem_cons, mem_sinkList less x b r]
      tauto
    · simp

/-- The inner loop of `insertionSort_func` moves the element at the end of the
sorted part to the place `sinkList` gives it. -/
theorem insertionInner_spec (less : Nat → Nat → Bool) (x : Nat) :
    ∀ (rp post : List Nat),
      insertionInner less 0 rp.length (rp.reverse ++ x :: post) =
        (sinkList less x rp).reverse ++ post
  | [], post => rfl
  | y :: r, post => by
    have hd : (y :: r).reverse ++ x :: post = r.reverse ++ y :: x :: post := by simp
    have hlen : r.reverse.length = r.length := List.length_reverse r
    have hx : lessAt less (r.reverse ++ y :: x :: post) (r.length + 1) r.length = less x y := by
      unfold lessAt
      rw [← hlen, (getD_append_mid r.reverse post y x).1, (getD_append_mid r.reverse post y x).2]
    have hs : swapAt (r.reverse ++ y :: x :: post) (r.length + 1) r.length =
        r.reverse ++ x :: y :: post := by
      rw [← hlen]; exact swapAt_mid r.reverse post y x
    rw [hd, List.length_cons]
    simp only [insertionInner, hx, hs, sinkList]
    by_cases h : less x y = true
    · have ih := insertionInner_spec less x r (y :: post)
      simp only [h, and_true, Nat.zero_lt_succ, if_true, ih, List.reverse_cons,
        List.append_assoc, List.singleton_append]
    · simp [h]

theorem insertionOuter_spec (less : Nat → Nat → Bool) :
    ∀ (rest rp : List Nat),
      insertionOuter less 0 rest.length rp.length (rp.reverse ++ rest) =
        (rest.foldl (fun acc x => sinkList less x acc) rp).reverse
  | [], rp => by simp [insertionOuter]
  | x :: rest, rp => by
    have ih := insertionOuter_spec less rest (sinkList less x rp)
    rw [length_sinkList] at ih
    simp only [List.length_cons, insertionOuter, insertionInner_spec, List.foldl_cons]
    exact ih

/-- On a whole slice `insertionSort_func` inserts the elements one after the other,
each from the end of the part already sorted. -/
theorem insertionSort_func_eq (less : Nat → Nat → Bool) (l : List Nat) :
    insertionSort_func less l 0 l.length =
      (l.foldl (fun acc x => sinkList less x acc) []).reverse := by
  cases l with
  | nil => rfl
  | cons x rest =>
    have h := insertionOuter_spec less rest [x]
    simp only [insertionSort_func, List.length_cons, List.foldl_cons, sinkList]
    simpa using h

/-- Up to twelve elements `sort.Slice` is `insertionSort_func`. -/
theorem sortSlice_short (brk : List Nat → Nat → Nat → List Nat) (less : Nat → Nat → Bool)
    (l : List Nat) (h : l.length ≤ 12) :
    Slice brk less l = some (insertionSort_func less l 0 l.length) ∧
    sortSlice brk less l = insertionSort_func less l 0 l.length := by
  have h1 : Slice brk less l = some (insertionSort_func less l 0 l.length) := by
    simp only [Slice, pdqsort_func, Nat.sub_zero, h, if_true]
  exact ⟨h1, by simp only [sortSlice, h1, Option.getD_some]⟩

theorem sinkList_ordered (less : Nat → Nat → Bool) (hsw : IsStrictWeak less) (x : Nat) :
    ∀ rp : List Nat, rp.Pairwise (fun a b => tieLess less b a) → (∀ z ∈ rp, z < x) →
      (sinkList less x rp).Pairwise (fun a b => tieLess less b a)
  | [], _, _ => by simp [sinkList]
  | y :: r, h1, h2 => by
    rw [List.pairwise_cons] at h1
    simp only [sinkList]
    by_cases h : less x y = true
    · rw [if_pos h, List.pairwise_cons]
      refine ⟨?_, sinkList_ordered less hsw x r h1.2
        (fun z hz => h2 z (List.mem_cons_of_mem _ hz))⟩
      intro b hb
      rcases (mem_sinkList less x b r).1 hb with hb | hb
      · subst hb; exact Or.inl h
      · exact h1.1 b hb
    · have hxy : less x y = false := by simpa using h
      rw [if_neg h, List.pairwise_cons]
      refine ⟨?_, List.pairwise_cons.2 h1⟩
      intro b hb
      right
      refine ⟨?_, h2 b hb⟩
      rcases List.mem_cons.1 hb with hb | hb
      · rw [hb]; exact hxy
      · have hyb : less y b = false := by
          rcases h1.1 b hb with e | e
          · exact strictWeak_asymm less hsw b y e
          · exact e.1
        exact strictWeak_negtrans less hsw b y x hyb hxy

theorem foldl_sinkList_ordered (less : Nat → Nat → Bool) (hsw : IsStrictWeak less) :
    ∀ (rest rp : List Nat), rp.Pairwise (fun a b => tieLess less b a) →
      (∀ z ∈ rp, ∀ x ∈ rest, z < x) → rest.Pairwise (fun a b => a < b) →
      (rest.foldl (fun acc x => sinkList less x acc) rp).Pairwise
        (fun a b => tieLess less b a)
  | [], rp, h1, _, _ => h1
  | x :: rest, rp, h1, h2, h3 => by
    rw [List.pairwise_cons] at h3
    rw [List.foldl_cons]
    apply foldl_sinkList_ordered less hsw rest
    · exact sinkList_ordered less hsw x rp h1 (fun z hz => h2 z hz x (by simp))
    · intro z hz w hw
      rcases (mem_sinkList less x z rp).1 hz with hz | hz
      · rw [hz]; exact h3.1 w hw
      · exact h2 z hz w (List.mem_cons_of_mem _ hw)
    · exact h3.2

/-- Sorting an increasing list of indices by insertion leaves them in the order
`tieLess`: tied indices stay in increasing order. -/
theorem insertionSort_func_stable (less : Nat → Nat → Bool) (hsw : IsStrictWeak less)
    (l : List Nat) (hl : l.Pairwise (fun a b => a < b)) :
    (insertionSort_func less l 0 l.length).Pairwise (tieLess less) := by
  rw [insertionSort_func_eq, List.pairwise_reverse]
  exact foldl_sinkList_ordered less hsw l [] List.Pairwise.nil (by simp) hl

theorem collectLoop_increasing (lower : Char → Char) (files : List ZipFile) :
    ∀ k : Nat, (collectLoop lower k files).Pairwise (fun a b => a < b) := by
  induction files with
  | nil => intro k; simp [collectLoop]
  | cons f fs ih =>
    intro k
    simp only [collectLoop]
    split_ifs
    · exact ih (k + 1)
    · refine List.pairwise_cons.2 ⟨?_, ih (k + 1)⟩
      intro b hb
      have := ((mem_collectLoop lower fs (k + 1) b).1 hb).1
      omega
    · exact ih (k + 1)

theorem indexOf_lt_of_ordered (less : Nat → Nat → Bool) (x y : Nat) (hxy : x < y)
    (t1 : less x y = false) (t2 : less y x = false) :
    ∀ l : List Nat, l.Pairwise (tieLess less) → x ∈ l → y ∈ l →
      List.indexOf x l < List.indexOf y l
  | [], _, hx, _ => by simp at hx
  | h :: t, hl, hx, hy => by
    rw [List.pairwise_cons] at hl
    by_cases e1 : h = x
    · have e2 : h ≠ y := by omega
      rw [List.indexOf_cons_eq _ e1, List.indexOf_cons_ne _ e2]
      exact Nat.succ_pos _
    · have hxt : x ∈ t := by
        rcases List.mem_cons.1 hx with e | e
        · exact absurd e.symm e1
        · exact e
      by_cases e2 : h = y
      · exfalso
        rcases hl.1 x hxt with e | e
        · rw [e2, t2] at e; exact Bool.noConfusion e
        · have := e.2
          omega
      · have hyt : y ∈ t := by
          rcases List.mem_cons.1 hy with e | e
          · exact absurd e.symm e2
          · exact e
        rw [List.indexOf_cons_ne _ e1, List.indexOf_cons_ne _ e2]
        exact Nat.succ_lt_succ (indexOf_lt_of_ordered less x y hxy t1 t2 t hl.2 hxt hyt)

theorem filter_images_length (lower : Char → Char) (files : List ZipFile) :
    (collectLoop lower 0 files).length =
      (files.filter (fun f =>
        !f.IsDir && decide (ToLower lower (Ext f.Name) ∈ imageExts))).length := by
  rw [length_collectLoop]
  congr 1
  apply List.filter_congr
  intro f _
  by_cases h : isImage lower f.Name = true
  · simp [h, (isImage_iff lower f.Name).1 h]
  · have h2 : ¬ ToLower lower (Ext f.Name) ∈ imageExts := fun e =>
      h ((isImage_iff lower f.Name).2 e)
    simp [h, h2]

/-! ## Ties -/

/-- A range of at most twelve elements is sorted by insertion at once. -/
theorem pdqsort_short (brk : List Nat → Nat → Nat → List Nat) (less : Nat → Nat → Bool)
    (n : Nat) (d : List Nat) (a b limit : Nat) (wb wp : Bool) (h : b - a ≤ 12) :
    pdqsort_func brk less (n + 1) d a b limit wb wp = some (insertionSort_func less d a b) := by
  simp only [pdqsort_func, h, if_true]

/-- A first round of `pdqsort_func` that starts at position 0 with both flags set,
finds the hint `increasingHint`, does not find the slice sorted and leaves the
shorter part on the left. -/
theorem pdqsort_round (brk : List Nat → Nat → Nat → List Nat) (less : Nat → Nat → Bool)
    (n : Nat) (d d2 : List Nat) (b limit pivot mid : Nat) (ap : Bool)
    (h12 : ¬ b - 0 ≤ 12) (hl : ¬ limit = 0)
    (hpc : choosePivot_func less d 0 b = (pivot, sortedHint.increasingHint))
    (hps : partialInsertionSort_func less d 0 b = (d, false))
    (hpt : partition_func less d 0 b pivot = (d2, mid, ap))
    (hm : mid - 0 < b - mid) :
    pdqsort_func brk less (n + 1) d 0 b limit true true =
      match pdqsort_func brk less n d2 0 mid limit true true with
      | none => none
      | some d3 =>
        pdqsort_func brk less n d3 (mid + 1) b limit (decide (mid - 0 ≥ (b - 0) / 8)) ap := by
  have hm2 : mid < b - mid := by simpa using hm
  have h13 : ¬ b ≤ 12 := by simpa using h12
  rw [pdqsort_func]
  simp [h13, hl, hpc, hps, hpt, hm2]

set_option maxRecDepth 100000 in
/-- The page index of the archive `chapters`, whatever `breakPatterns_func` does:
the routine is not reached. -/
theorem pageIdx_chapters (brk : List Nat → Nat → Nat → List Nat) :
    Slice brk (pageLess asciiLower chapters) (collectLoop asciiLower 0 chapters) =
      some [12, 6, 2, 3, 4, 5, 0, 7, 8, 9, 10, 11, 1] ∧
    (OpenArchive asciiLower (sortSlice brk) (fun _ => .ok chapters) NewApp []).1.pageIdx =
      [12, 6, 2, 3, 4, 5, 0, 7, 8, 9, 10, 11, 1] := by
  have hc : collectLoop asciiLower 0 chapters = [0, 1, 2, 3, 4, 5, 6, 7, 8, 9, 10, 11, 12] := by
    decide
  have hpc : choosePivot_func (pageLess asciiLower chapters)
      [0, 1, 2, 3, 4, 5, 6, 7, 8, 9, 10, 11, 12] 0 13 = (6, sortedHint.increasingHint) := by
    decide
  have hps : partialInsertionSort_func (pageLess asciiLower chapters)
      [0, 1, 2, 3, 4, 5, 6, 7, 8, 9, 10, 11, 12] 0 13 =
      ([0, 1, 2, 3, 4, 5, 6, 7, 8, 9, 10, 11, 12], false) := by
    decide
  have hpt : partition_func (pageLess asciiLower chapters)
      [0, 1, 2, 3, 4, 5, 6, 7, 8, 9, 10, 11, 12] 0 13 6 =
      ([12, 6, 2, 3, 4, 5, 0, 7, 8, 9, 10, 11, 1], 1, false) := by
    decide
  have hi1 : insertionSort_func (pageLess asciiLower chapters)
      [12, 6, 2, 3, 4, 5, 0, 7, 8, 9, 10, 11, 1] 0 1 =
      [12, 6, 2, 3, 4, 5, 0, 7, 8, 9, 10, 11, 1] := by
    decide
  have hi2 : insertionSort_func (pageLess asciiLower chapters)
      [12, 6, 2, 3, 4, 5, 0, 7, 8, 9, 10, 11, 1] 2 13 =
      [12, 6, 2, 3, 4, 5, 0, 7, 8, 9, 10, 11, 1] := by
    decide
  have r1 : pdqsort_func brk (pageLess asciiLower chapters) 13
      [12, 6, 2, 3, 4, 5, 0, 7, 8, 9, 10, 11, 1] 0 1 4 true true =
      some [12, 6, 2, 3, 4, 5, 0, 7, 8, 9, 10, 11, 1] :=
    (pdqsort_short brk (pageLess asciiLower chapters) 12 _ 0 1 4 true true (by decide)).trans
      (congrArg some hi1)
  have r2 : pdqsort_func brk (pageLess asciiLower chapters) 13
      [12, 6, 2, 3, 4, 5, 0, 7, 8, 9, 10, 11, 1] 2 13 4 true false =
      some [12, 6, 2, 3, 4, 5, 0, 7, 8, 9, 10, 11, 1] :=
    (pdqsort_short brk (pageLess asciiLower chapters) 12 _ 2 13 4 true false (by decide)).trans
      (congrArg some hi2)
  have r0 := pdqsort_round brk (pageLess asciiLower chapters) 13
    [0, 1, 2, 3, 4, 5, 6, 7, 8, 9, 10, 11, 12] [12, 6, 2, 3, 4, 5, 0, 7, 8, 9, 10, 11, 1]
    13 4 6 1 false (by decide) (by decide) hpc hps hpt (by decide)
  rw [r1] at r0
  have h : Slice brk (pageLess asciiLower chapters) (collectLoop asciiLower 0 chapters) =
      some [12, 6, 2, 3, 4, 5, 0, 7, 8, 9, 10, 11, 1] := by
    rw [hc]
    exact r0.trans r2
  refine ⟨h, ?_⟩
  rw [OpenArchive_ok asciiLower (sortSlice brk) (fun _ => .ok chapters) NewApp [] chapters rfl]
  simp only [sortSlice, h, Option.getD_some]

/-- C8, refuted on the code: it is not the case that, whatever `breakPatterns_func`
does, for every archive two retained entries that compare equal appear in `pageIdx`
in archive order. For the thirteen entries of `chapters` the first round of
`pdqsort_func` swaps the pivot, entry 6, to the front and entry 0 into its place:
the page index is 12, 6, 2, 3, 4, 5, 0, 7, 8, 9, 10, 11, 1, where entry 2 stands
before entry 0 although the two compare equal. -/
theorem ties_reordered_beyond_twelve :
    ¬ ∃ brk : List Nat → Nat → Nat → List Nat,
      ∀ (lower : Char → Char) (rd : Str → Except ZipError (List ZipFile)) (a : App)
        (path : Str) (files : List ZipFile), rd path = .ok files →
      ∀ x y : Nat, x ∈ (OpenArchive lower (sortSlice brk) rd a path).1.pageIdx →
        y ∈ (OpenArchive lower (sortSlice brk) rd a path).1.pageIdx → x < y →
        naturalLess lower (nameAt files x) (nameAt files y) = false →
        naturalLess lower (nameAt files y) (nameAt files x) = false →
        List.indexOf x (OpenArchive lower (sortSlice brk) rd a path).1.pageIdx <
          List.indexOf y (OpenArchive lower (sortSlice brk) rd a path).1.pageIdx := by
  rintro ⟨brk, h⟩
  have h1 := h asciiLower (fun _ => .ok chapters) NewApp [] chapters rfl 0 2
  rw [(pageIdx_chapters brk).2] at h1
  have h2 := h1 (by decide) (by decide) (by decide) (by decide) (by decide)
  revert h2
  decide

/-- C8, amended: ties keep archive order in an archive with at most twelve image
entries. If the archive holds at most twelve entries that are not directories and
have a recognised extension, and two entries of the page index compare equal under
`naturalLess`, then after `OpenArchive` the one that comes first in the entry list
of the archive comes first in `pageIdx`: `sort.Slice` sorts such a slice by
insertion. -/
theorem ties_kept_up_to_twelve (lower : Char → Char)
    (brk : List Nat → Nat → Nat → List Nat)
    (rd : Str → Except ZipError (List ZipFile)) (a : App) (path : Str) (files : List ZipFile)
    (hrd : rd path = .ok files)
    (hn : (files.filter (fun f =>
      !f.IsDir && decide (ToLower lower (Ext f.Name) ∈ imageExts))).length ≤ 12)
    (x y : Nat)
    (hx : x ∈ (OpenArchive lower (sortSlice brk) rd a path).1.pageIdx)
    (hy : y ∈ (OpenArchive lower (sortSlice brk) rd a path).1.pageIdx)
    (hxy : x < y)
    (t1 : naturalLess lower (nameAt files x) (nameAt files y) = false)
    (t2 : naturalLess lower (nameAt files y) (nameAt files x) = false) :
    List.indexOf x (OpenArchive lower (sortSlice brk) rd a path).1.pageIdx <
      List.indexOf y (OpenArchive lower (sortSlice brk) rd a path).1.pageIdx := by
  rw [OpenArchive_ok lower (sortSlice brk) rd a path files hrd] at hx hy ⊢
  have hlen : (collectLoop lower 0 files).length ≤ 12 := by
    rw [filter_images_length]; exact hn
  have hs := (sortSlice_short brk (pageLess lower files) _ hlen).2
  simp only [hs] at hx hy ⊢
  exact indexOf_lt_of_ordered (pageLess lower files) x y hxy t1 t2 _
    (insertionSort_func_stable (pageLess lower files) (pageLess_strictWeak lower files) _
      (collectLoop_increasing lower files 0)) hx hy

/-- C8, amended, on the archive `img01.jpg`, `img1.jpg`: the two names compare
equal and the page index is 0, 1. -/
theorem ties_kept_up_to_twelve_witness :
    (OpenArchive asciiLower (sortSlice (fun d _ _ => d))
      (fun _ => .ok [fileEntry "img01.jpg", fileEntry "img1.jpg"]) NewApp []).1.pageIdx =
      [0, 1] ∧
    List.indexOf 0 (OpenArchive asciiLower (sortSlice (fun d _ _ => d))
      (fun _ => .ok [fileEntry "img01.jpg", fileEntry "img1.jpg"]) NewApp []).1.pageIdx <
    List.indexOf 1 (OpenArchive asciiLower (sortSlice (fun d _ _ => d))
      (fun _ => .ok [fileEntry "img01.jpg", fileEntry "img1.jpg"]) NewApp []).1.pageIdx :=
  ⟨by decide,
    ties_kept_up_to_twelve asciiLower (fun d _ _ => d)
      (fun _ => .ok [fileEntry "img01.jpg", fileEntry "img1.jpg"]) NewApp [] _ rfl
      (by decide) 0 1 (by decide) (by decide) (by decide) (by decide) (by decide)⟩

end GoatViewer
